import Mathlib

set_option maxHeartbeats 1000000

/-
Shallow embedding of livesplit-core's run reconciliation code
(src/run/run.rs) and of the auto-splitting settings map
(crates/livesplit-auto-splitting/src/settings.rs).

Modelling conventions:
* `TimeSpan` (a signed duration) is modelled as an integer number of
  milliseconds, so `total_milliseconds` is the identity and the
  millisecond-quantised dedup sets of `remove_duplicates` compare plain
  integers.
* Fallible operations that panic in Rust (`expect`) return `Option`.
* `BTreeMap<i32, Time>` (the segment history) is modelled as an
  association list ordered the way the map iterates; `retain` is `filter`,
  `remove` drops the entries with the given key.
* `HashMap` collections (a segment's comparisons, the settings map) are
  modelled as association lists; the code never iterates over them, so
  only keyed lookup/update semantics matter.
-/

abbrev TimeSpan := Int

inductive TimingMethod where
  | realTime
  | gameTime
deriving DecidableEq

/-- The list of timing methods, in the order `TimingMethod::all()` yields
them (Real Time first, then Game Time). -/
def TimingMethod.all : List TimingMethod := [.realTime, .gameTime]

/-- A pair of optional time spans, one per timing method
(`Time` in the source). -/
structure Time where
  real_time : Option TimeSpan
  game_time : Option TimeSpan
deriving DecidableEq

def Time.default : Time := ⟨none, none⟩

/-- Indexing a `Time` by a timing method (`time[method]` in the source). -/
def Time.get (t : Time) : TimingMethod → Option TimeSpan
  | .realTime => t.real_time
  | .gameTime => t.game_time

/-- Writing one method's component of a `Time`
(`time[method] = v` in the source). -/
def Time.set (t : Time) : TimingMethod → Option TimeSpan → Time
  | .realTime, v => ⟨v, t.game_time⟩
  | .gameTime, v => ⟨t.real_time, v⟩

/-- A history entry is fully absent when both methods are `None`; the
source checks `real_time.is_none() && game_time.is_none()`. -/
def Time.isEmptyTime (t : Time) : Bool :=
  t.real_time.isNone && t.game_time.isNone

/-- Modelled from the spec: the Segment History ledger, an ordered mapping
from signed integer index to a `Time` record (its Rust definition is not
part of the given sources; the spec describes point lookup,
remove-by-index, retain-by-predicate, full iteration, iteration restricted
to actual-run entries with index at least 1, and a minimum index). -/
abbrev SegmentHistory := List (Int × Time)

/-- Point lookup by index. -/
def SegmentHistory.get (h : SegmentHistory) (i : Int) : Option Time :=
  (h.find? (fun e => e.1 == i)).map (fun e => e.2)

/-- Remove the entry with the given index. -/
def SegmentHistory.remove (h : SegmentHistory) (i : Int) : SegmentHistory :=
  h.filter (fun e => !(e.1 == i))

/-- Iteration restricted to actual-run entries (index at least 1). -/
def SegmentHistory.iter_actual_runs (h : SegmentHistory) : SegmentHistory :=
  h.filter (fun e => decide (1 ≤ e.1))

/-- Modelled from the spec: the minimum index of one segment's history;
for an empty history the conventional default index 1 is used (the spec
only constrains the run-wide minimum, which requires a segment). -/
def SegmentHistory.minIndex (h : SegmentHistory) : Int :=
  ((h.map (fun e => e.1)).min?).getD 1

/-- Modelled from the spec: a Segment owns a name, a split `Time`, a
mutable best segment `Time`, a mapping from comparison name to `Time`, and
a Segment History ledger (its Rust definition is not part of the given
sources). -/
structure Segment where
  name : String
  split_time : Time
  best_segment_time : Time
  comparisons : List (String × Time)
  segment_history : SegmentHistory
deriving DecidableEq

/-- Reading a segment's time for a named comparison; a missing entry reads
as the default (fully absent) `Time`. -/
def Segment.comparison (s : Segment) (c : String) : Time :=
  ((s.comparisons.find? (fun e => e.1 == c)).map (fun e => e.2)).getD Time.default

def Segment.hasComparison (s : Segment) (c : String) : Bool :=
  s.comparisons.any (fun e => e.1 == c)

/-- The entry-materialising side of `comparison_mut`: reading a comparison
through `comparison_mut` inserts a default entry if the name is missing. -/
def Segment.ensure_comparison (s : Segment) (c : String) : Segment :=
  if s.hasComparison c then s
  else { s with comparisons := s.comparisons ++ [(c, Time.default)] }

/-- Writing one method's component of a named comparison
(`segment.comparison_mut(comparison)[method] = v`). -/
def Segment.set_comparison_time (s : Segment) (c : String) (m : TimingMethod)
    (v : Option TimeSpan) : Segment :=
  { s with comparisons :=
      s.comparisons.map (fun e => if e.1 == c then (e.1, e.2.set m v) else e) }

/-- Writing one method's component of the best segment time
(`segment.best_segment_time_mut()[method] = v`). -/
def Segment.set_best_time (s : Segment) (m : TimingMethod)
    (v : Option TimeSpan) : Segment :=
  { s with best_segment_time := s.best_segment_time.set m v }

/-- Modelled from the spec: a timestamp, opaque to all claims. -/
structure AtomicDateTime where
  stamp : Int
  synced : Bool
deriving DecidableEq

/-- One attempt record of the Attempt History. -/
structure Attempt where
  index : Int
  time : Time
  started : Option AtomicDateTime
  ended : Option AtomicDateTime
  pause_time : Option TimeSpan
deriving DecidableEq

/-- Modelled from the spec: the run metadata holding the speedrun.com run
id, platform and region names, the emulator flag and the ordered variable
list (its Rust definition is not part of the given sources). -/
structure RunMetadata where
  run_id : String
  platform_name : String
  region_name : String
  uses_emulator : Bool
  vars : List (String × String)
deriving DecidableEq

/-- The ordered variable list of the metadata (the field is called
`variables` in the source; that spelling is a reserved command name in
Lean). -/
def RunMetadata.variablesList (md : RunMetadata) : List (String × String) :=
  md.vars

/-- The Run aggregate from src/run/run.rs. The game icon, backing file
path, auto splitter settings payload and comparison generator list are
omitted: no claim observes them and every modelled operation leaves them
unchanged. -/
structure Run where
  game_name : String
  category_name : String
  offset : TimeSpan
  attempt_count : Nat
  attempt_history : List Attempt
  metadata : RunMetadata
  has_changed : Bool
  segments : List Segment
  custom_comparisons : List String
deriving DecidableEq

/-- The name of the Personal Best comparison (`personal_best::NAME`). -/
def personalBestName : String := "Personal Best"

/-- Maximum index in use by the Attempt History. -/
def Run.max_attempt_history_index (r : Run) : Option Int :=
  (r.attempt_history.map Attempt.index).max?

/-- Appends a new attempt with a caller-supplied index. -/
def Run.add_attempt_with_index (r : Run) (time : Time) (index : Int)
    (started ended : Option AtomicDateTime) (pause_time : Option TimeSpan) : Run :=
  { r with attempt_history :=
      r.attempt_history ++ [⟨index, time, started, ended, pause_time⟩] }

/-- Appends a new attempt, allocating its index exactly as the source
does: the maximum existing index (0 when the history is empty), plus one,
clamped from below by 0. -/
def Run.add_attempt (r : Run) (time : Time)
    (started ended : Option AtomicDateTime) (pause_time : Option TimeSpan) : Run :=
  let index := ((r.attempt_history.map Attempt.index).max?).getD 0
  let index := max 0 (index + 1)
  r.add_attempt_with_index time index started ended pause_time

/-- Minimum index in use by all the Segment Histories; `none` models the
panic on a Run without segments. -/
def Run.min_segment_history_index (r : Run) : Option Int :=
  (r.segments.map (fun s => SegmentHistory.minIndex s.segment_history)).min?

/-- Step 2 of `fix_comparison_times_and_history`: a segment without a best
segment time for the method keeps only the history entries that are also
absent for the method. -/
def fix_history_from_none_best_segments (s : Segment) (m : TimingMethod) : Segment :=
  if s.best_segment_time.get m = none then
    { s with segment_history :=
        s.segment_history.filter (fun e => decide (e.2.get m = none)) }
  else s

/-- Step 4 of `fix_comparison_times_and_history`: every concrete history
entry is raised to at least the best segment time. -/
def fix_history_from_best_segment_times (s : Segment) (m : TimingMethod) : Segment :=
  match s.best_segment_time.get m with
  | none => s
  | some b =>
    { s with segment_history := s.segment_history.map (fun e =>
        match e.2.get m with
        | some v => if v < b then (e.1, e.2.set m (some b)) else e
        | none => e) }

/-- The Personal-Best part of the comparison walk body: when the walked
comparison is Personal Best, lower the best segment time to the implied
segment duration `t1 - prev` when the recorded best is absent or slower
(`map_or(true, |t| t > current_segment)` in the source). -/
def fixCompPB (c : String) (m : TimingMethod) (prev t1 : TimeSpan) (s2 : Segment) :
    Segment :=
  if c = personalBestName then
    match s2.best_segment_time.get m with
    | none => s2.set_best_time m (some (t1 - prev))
    | some b => if b > t1 - prev then s2.set_best_time m (some (t1 - prev)) else s2
  else s2

/-- The body of the comparison walk for one segment: materialise the
comparison entry (`comparison_mut`), clamp a decreasing time up to the
running previous time, apply the Personal-Best best-segment correction,
and return the updated segment together with the new running previous
time. -/
def fixCompSeg (c : String) (m : TimingMethod) (prev : TimeSpan) (s : Segment) :
    Segment × TimeSpan :=
  match ((s.ensure_comparison c).comparison c).get m with
  | none => (s.ensure_comparison c, prev)
  | some t =>
    (fixCompPB c m prev (if t < prev then prev else t)
      (if t < prev then (s.ensure_comparison c).set_comparison_time c m (some prev)
       else s.ensure_comparison c),
     if t < prev then prev else t)

/-- The comparison walk over the segment list in run order, carrying the
running previous cumulative time. -/
def fixCompList (c : String) (m : TimingMethod) (prev : TimeSpan) :
    List Segment → List Segment
  | [] => []
  | s :: rest =>
    (fixCompSeg c m prev s).1 :: fixCompList c m (fixCompSeg c m prev s).2 rest

/-- Step 1 of `fix_comparison_times_and_history` on one segment: a
negative best segment time is reset to absent. -/
def step1Seg (m : TimingMethod) (s : Segment) : Segment :=
  match s.best_segment_time.get m with
  | some t => if t < 0 then s.set_best_time m none else s
  | none => s

/-- One full pass of `fix_comparison_times_and_history` for a timing
method: clear negative best segment times, prune history of segments
without a best segment time, walk every custom comparison, then enforce
the best segment floor on the histories. -/
def Run.fix_comparison_times_and_history (r : Run) (method : TimingMethod) : Run :=
  { r with segments :=
      ((r.custom_comparisons.foldl (fun segs c => fixCompList c method 0 segs)
        ((r.segments.map (step1Seg method)).map
          (fun s => fix_history_from_none_best_segments s method))).map
        (fun s => fix_history_from_best_segment_times s method)) }

/-- Insertion into one of the millisecond dedup sets; inserting a value
that is already present leaves the set unchanged. -/
def setInsert (v : Int) (s : List Int) : List Int :=
  if v ∈ s then s else v :: s

def dedupAdvance (s : List Int) : Option TimeSpan → List Int
  | some v => setInsert v s
  | none => s

/-- The keep decision of the `retain` closure of `remove_duplicates` for a
synthetic entry: kept when fully absent, or when either concrete value is
the first occurrence in its dedup set. -/
def dedupKeep (rta igt : List Int) (t : Time) : Bool :=
  match t.real_time, t.game_time with
  | none, none => true
  | some v, none => decide (v ∉ rta)
  | none, some w => decide (w ∉ igt)
  | some v, some w => decide (v ∉ rta) || decide (w ∉ igt)

/-- The stateful `retain` scan of `remove_duplicates` over one history in
index order: actual-run entries (index at least 1) are always kept; a
synthetic entry inserts its concrete values into the dedup sets and is
kept when fully absent or first-seen. -/
def dedupScan (rta igt : List Int) : SegmentHistory → SegmentHistory
  | [] => []
  | e :: rest =>
    if 1 ≤ e.1 then e :: dedupScan rta igt rest
    else if dedupKeep rta igt e.2 then
      e :: dedupScan (dedupAdvance rta e.2.real_time) (dedupAdvance igt e.2.game_time) rest
    else dedupScan (dedupAdvance rta e.2.real_time) (dedupAdvance igt e.2.game_time) rest

/-- The seed of the real-time dedup set: the concrete real times of the
actual-run entries. -/
def seedsRT (h : SegmentHistory) : List Int :=
  (h.filter (fun e => decide (1 ≤ e.1))).filterMap (fun e => e.2.real_time)

/-- The seed of the game-time dedup set: the concrete game times of the
actual-run entries. -/
def seedsGT (h : SegmentHistory) : List Int :=
  (h.filter (fun e => decide (1 ≤ e.1))).filterMap (fun e => e.2.game_time)

def removeDuplicatesSeg (s : Segment) : Segment :=
  { s with segment_history :=
      dedupScan (seedsRT s.segment_history) (seedsGT s.segment_history) s.segment_history }

/-- `remove_duplicates`: per segment, seed the dedup sets from the
actual-run entries and retain the history through the stateful scan. -/
def Run.remove_duplicates (r : Run) : Run :=
  { r with segments := r.segments.map removeDuplicatesSeg }

def removeEntry (i : Int) (s : Segment) : Segment :=
  { s with segment_history := s.segment_history.remove i }

/-- The left-to-right scan of one history row in `remove_none_values`,
carrying the finished prefix and the pending fully-absent segments exactly
as the imperative cache does: a fully-absent entry joins the pending
queue, a concrete entry retains the queue, and a missing entry (or the end
of the row) flushes the queue by removing the row entry from each pending
segment. -/
def scanRowAux (i : Int) (acc pending : List Segment) :
    List Segment → List Segment
  | [] => acc ++ pending.map (removeEntry i)
  | s :: rest =>
    match s.segment_history.get i with
    | some t =>
      if t.isEmptyTime then scanRowAux i acc (pending ++ [s]) rest
      else scanRowAux i (acc ++ pending ++ [s]) [] rest
    | none => scanRowAux i (acc ++ pending.map (removeEntry i) ++ [s]) [] rest

def scanRow (i : Int) (segs : List Segment) : List Segment :=
  scanRowAux i [] [] segs

/-- The integer interval `lo, lo+1, ..., hi-1` driving the row loop. -/
def rangeInt (lo hi : Int) : List Int :=
  (List.range (hi - lo).toNat).map (fun (k : Nat) => lo + (k : Int))

/-- The row loop of `remove_none_values`: scan every row index from the
given minimum up to the maximum attempt index inclusive. -/
def rnvSegments (r : Run) (minIdx : Int) : List Segment :=
  (rangeInt minIdx ((r.max_attempt_history_index).getD 0 + 1)).foldl
    (fun segs i => scanRow i segs) r.segments

/-- `remove_none_values`: for every row index from the minimum segment
history index to the maximum attempt index, scan the row; `none` models
the panic of `min_segment_history_index` on a Run without segments. -/
def Run.remove_none_values (r : Run) : Option Run :=
  match r.min_segment_history_index with
  | none => none
  | some minIdx =>
    some { r with segments := rnvSegments r minIdx }

/-- `fix_splits`: fix comparison times and history once per timing method,
then remove duplicates, then remove dangling fully-absent entries; `none`
models the panic on a Run without segments. -/
def Run.fix_splits (r : Run) : Option Run :=
  (TimingMethod.all.foldl (fun r m => r.fix_comparison_times_and_history m) r)
    |>.remove_duplicates
    |>.remove_none_values

def asciiLower (c : Char) : Char :=
  if 'A' ≤ c ∧ c ≤ 'Z' then Char.ofNat (c.toNat + 32) else c

/-- Modelled from the spec: the case-insensitive string equality used for
the "yes"/"no" variable values (the `unicase` crate in the source),
restricted to ASCII folding, which is all those comparisons exercise. -/
def uniEq (a b : String) : Bool :=
  a.toList.map asciiLower == b.toList.map asciiLower

/-- `name.trim_right_matches('?')`: drop every trailing question mark. -/
def trimRightQ (l : List Char) : List Char :=
  (l.reverse.dropWhile (fun c => c == '?')).reverse

/-- The `push` closure of `extended_category_name`: state is the buffer,
the `is_empty` flag and the `has_pushed` flag; the first push into an
empty group opens " (", later pushes are comma-separated. -/
def pushToken (st : List Char × Bool × Bool) (tok : List Char) : List Char × Bool × Bool :=
  match st with
  | (buf, is_empty, has_pushed) =>
    if is_empty then
      (buf ++ (if has_pushed then [] else " (".toList) ++ tok, false, true)
    else
      (buf ++ ", ".toList ++ tok, false, true)

/-- The rendering of one metadata variable: a value that case-insensitively
equals "yes" renders as the variable's name with trailing question marks
stripped; "no" renders as "No " followed by the value; anything else
renders as the literal value. -/
def variableToken (nv : String × String) : List Char :=
  if uniEq nv.2 "yes" then trimRightQ nv.1.toList
  else if uniEq nv.2 "no" then "No ".toList ++ nv.2.toList
  else nv.2.toList

/-- `extended_category_name`: scan for the first parenthetical group,
append the requested variable/region/platform values inside it (or open a
new group), and keep any text after the group. The scan is modelled at
character rather than byte granularity; the behaviour agrees on all the
inputs of the claims. -/
def Run.extended_category_name (r : Run)
    (show_region show_platform show_variables : Bool) : String :=
  let cat := r.category_name.toList
  if cat.isEmpty then r.category_name
  else
    let pinfo :=
      (cat.findIdx? (fun c => c == '(')).bind (fun i =>
        ((cat.drop i).findIdx? (fun c => c == ')')).map (fun u => (i, i + u)))
    let base := match pinfo with | none => cat | some p => cat.take p.2
    let is_empty0 := match pinfo with | none => true | some p => decide (p.2 = p.1 + 1)
    let after := match pinfo with | none => ([] : List Char) | some p => cat.drop p.2
    let varTokens :=
      if show_variables then r.metadata.variablesList.map variableToken else []
    let regionTokens :=
      if show_region then
        (if r.metadata.region_name.isEmpty then [] else [r.metadata.region_name.toList])
      else []
    let platTokens :=
      if show_platform then
        if r.metadata.platform_name.isEmpty then
          (if r.metadata.uses_emulator then ["Emulator".toList] else [])
        else
          (if r.metadata.uses_emulator then
            [r.metadata.platform_name.toList ++ " Emulator".toList]
          else [r.metadata.platform_name.toList])
      else []
    let st := (varTokens ++ regionTokens ++ platTokens).foldl pushToken (base, is_empty0, false)
    match st with
    | (buf, is_empty, has_pushed) =>
      if after.isEmpty then
        (if is_empty then buf.asString else (buf ++ [')']).asString)
      else
        (if has_pushed then (buf ++ after).asString else r.category_name)

/-- A value an auto-splitter setting can have (`SettingValue` in
crates/livesplit-auto-splitting/src/settings.rs). -/
inductive SettingValue where
  | boolVal (val : Bool)
deriving DecidableEq

/-- The auto-splitter settings map. The source stores the pairs behind an
`Arc` and `insert` goes through `Arc::make_mut`, which copies the shared
storage before mutating; this value-semantics model captures the
observable key-value behaviour of `insert`, `get` and cloning. -/
structure SettingsMap where
  values : List (String × SettingValue)
deriving DecidableEq

/-- `SettingsMap::new`: the empty map. -/
def SettingsMap.new : SettingsMap := ⟨[]⟩

/-- `SettingsMap::insert`: upsert of a key. -/
def SettingsMap.insert (m : SettingsMap) (key : String) (value : SettingValue) : SettingsMap :=
  ⟨(key, value) :: m.values.filter (fun e => !(e.1 == key))⟩

/-- `SettingsMap::get`: the stored override for a key, or `none`. -/
def SettingsMap.get (m : SettingsMap) (key : String) : Option SettingValue :=
  (m.values.find? (fun e => e.1 == key)).map (fun e => e.2)

/-- Cloning a settings map (`#[derive(Clone)]` on `SettingsMap`). -/
def SettingsMap.clone (m : SettingsMap) : SettingsMap := m

/-! Concrete runs used by the witnesses and counterexamples below. -/

/-- Empty metadata. -/
def mdEmpty : RunMetadata := ⟨"", "", "", false, []⟩

/-- A run whose only attempt has the negative index -1. -/
def runNegAttempt : Run :=
  ⟨"", "", 0, 0, [⟨-1, Time.default, none, none, none⟩], mdEmpty, false, [], []⟩

/-- A run with one segment whose history holds a fully absent entry at the
actual-run index 1, matching an attempt with index 1. -/
def runAbsentActual : Run :=
  ⟨"", "", 0, 0, [⟨1, Time.default, none, none, none⟩], mdEmpty, false,
    [⟨"A", Time.default, Time.default, [], [(1, Time.default)]⟩], ["Personal Best"]⟩

/-- A run with one segment whose history holds synthetic entries at
indices -1 and 0 and an actual-run entry at index 1, all with the same
concrete real time and no game time. -/
def runDupSynthetic : Run :=
  ⟨"", "", 0, 0, [], mdEmpty, false,
    [⟨"A", Time.default, Time.default, [],
      [(-1, ⟨some 100, none⟩), (0, ⟨some 100, none⟩), (1, ⟨some 100, none⟩)]⟩],
    ["Personal Best"]⟩

/-- A small already-consistent run: one segment with Personal Best split 5,
best segment time 2, a history entry 5 at the actual-run index 1, and one
attempt with index 1. -/
def runFixedExample : Run :=
  ⟨"", "", 0, 0, [⟨1, ⟨some 5, none⟩, none, none, none⟩], mdEmpty, false,
    [⟨"A", Time.default, ⟨some 2, none⟩, [("Personal Best", ⟨some 5, none⟩)],
      [(1, ⟨some 5, none⟩)]⟩],
    ["Personal Best"]⟩

/-! Basic structural lemmas: the reconciliation passes preserve the
segment count, the attempt history and the custom comparison list. -/

theorem fixCompList_length (c : String) (m : TimingMethod) (prev : TimeSpan)
    (segs : List Segment) : (fixCompList c m prev segs).length = segs.length := by
  induction segs generalizing prev with
  | nil => rfl
  | cons s rest ih => simp [fixCompList, ih]

theorem foldl_fixCompList_length (m : TimingMethod) (cs : List String)
    (segs : List Segment) :
    (cs.foldl (fun segs c => fixCompList c m 0 segs) segs).length = segs.length := by
  induction cs generalizing segs with
  | nil => rfl
  | cons c rest ih => rw [List.foldl_cons, ih, fixCompList_length]

theorem fixComp_segments_length (r : Run) (m : TimingMethod) :
    (r.fix_comparison_times_and_history m).segments.length = r.segments.length := by
  simp [Run.fix_comparison_times_and_history, foldl_fixCompList_length]

theorem fixComp_attempts (r : Run) (m : TimingMethod) :
    (r.fix_comparison_times_and_history m).attempt_history = r.attempt_history := rfl

theorem fixComp_customs (r : Run) (m : TimingMethod) :
    (r.fix_comparison_times_and_history m).custom_comparisons = r.custom_comparisons := rfl

theorem dedup_segments_length (r : Run) :
    r.remove_duplicates.segments.length = r.segments.length := by
  simp [Run.remove_duplicates]

theorem dedup_attempts (r : Run) :
    r.remove_duplicates.attempt_history = r.attempt_history := rfl

theorem dedup_customs (r : Run) :
    r.remove_duplicates.custom_comparisons = r.custom_comparisons := rfl

theorem scanRowAux_length (i : Int) (segs : List Segment) :
    ∀ acc pending : List Segment,
      (scanRowAux i acc pending segs).length
        = acc.length + pending.length + segs.length := by
  induction segs with
  | nil => intro acc pending; simp [scanRowAux]
  | cons s rest ih =>
    intro acc pending
    simp only [scanRowAux]
    cases hg : s.segment_history.get i with
    | none => rw [ih]; simp; omega
    | some t =>
      by_cases he : t.isEmptyTime
      · simp only [he, if_true]
        rw [ih]; simp; omega
      · simp only [he, if_false, Bool.false_eq_true]
        rw [ih]; simp; omega

theorem scanRow_length (i : Int) (segs : List Segment) :
    (scanRow i segs).length = segs.length := by
  have := scanRowAux_length i segs [] []
  simpa [scanRow] using this

theorem foldl_scanRow_length (rows : List Int) (segs : List Segment) :
    (rows.foldl (fun segs i => scanRow i segs) segs).length = segs.length := by
  induction rows generalizing segs with
  | nil => rfl
  | cons i rest ih => rw [List.foldl_cons, ih, scanRow_length]

theorem rnv_eq_none_iff (r : Run) :
    r.remove_none_values = none ↔ r.segments = [] := by
  unfold Run.remove_none_values Run.min_segment_history_index
  cases h : (r.segments.map (fun s => SegmentHistory.minIndex s.segment_history)).min? with
  | none =>
    simp only [h]
    rw [List.min?_eq_none_iff] at h
    simp [List.map_eq_nil_iff] at h
    simp [h]
  | some m =>
    simp only [h]
    constructor
    · intro hc; cases hc
    · intro hs
      exfalso
      rw [hs] at h
      simp at h

theorem rnv_some_eq (r r' : Run) (h : r.remove_none_values = some r') :
    ∃ minIdx, r.min_segment_history_index = some minIdx ∧
      r' = { r with segments := rnvSegments r minIdx } := by
  unfold Run.remove_none_values at h
  cases hm : r.min_segment_history_index with
  | none => rw [hm] at h; cases h
  | some m =>
    rw [hm] at h
    simp only [Option.some.injEq] at h
    exact ⟨m, rfl, h.symm⟩

theorem fixSplits_pre_length (r : Run) :
    ((TimingMethod.all.foldl (fun r m => r.fix_comparison_times_and_history m) r)
      |>.remove_duplicates).segments.length = r.segments.length := by
  simp [TimingMethod.all, dedup_segments_length, fixComp_segments_length]

/-! Claim theorems. -/

/-- Claim C1, counterexample: on a run whose single segment holds a fully
absent history entry at the actual-run index 1 (matching attempt index 1),
the pruning pass `remove_none_values` of `fix_splits` removes that
index-1 entry, so an entry with index at least 1 is removed. -/
theorem c1_counterexample :
    runAbsentActual.remove_none_values
      = some ⟨"", "", 0, 0, [⟨1, Time.default, none, none, none⟩], mdEmpty, false,
          [⟨"A", Time.default, Time.default, [], []⟩], ["Personal Best"]⟩ ∧
    (∃ s ∈ runAbsentActual.segments, (1, Time.default) ∈ s.segment_history) ∧
    (∀ s ∈ [Segment.mk "A" Time.default Time.default [] []],
      (1, Time.default) ∉ s.segment_history) := by
  refine ⟨by decide, by decide, by decide⟩

/-- Claim C2, counterexample: with synthetic entries at indices 0 and -1
holding the same concrete real time as the actual-run entry at index 1,
`remove_duplicates` removes both synthetic entries (their value is already
seeded from the actual-run entry), so no synthetic entry remains — not
exactly one. -/
theorem c2_counterexample :
    (runDupSynthetic.remove_duplicates).segments
      = [⟨"A", Time.default, Time.default, [], [(1, ⟨some 100, none⟩)]⟩] ∧
    ¬ ∃ s ∈ (runDupSynthetic.remove_duplicates).segments,
        ∃ e ∈ s.segment_history, e.1 ≤ 0 := by
  refine ⟨by decide, by decide⟩

/-- Claim C2, amended: on that run `remove_duplicates` keeps the
actual-run entry unchanged and removes both synthetic duplicates, because
the dedup set is seeded with the actual-run value before the synthetic
entries are scanned. -/
theorem c2_amended :
    (runDupSynthetic.remove_duplicates).segments
      = [⟨"A", Time.default, Time.default, [], [(1, ⟨some 100, none⟩)]⟩] ∧
    (runDupSynthetic.remove_duplicates).attempt_history
      = runDupSynthetic.attempt_history := by
  refine ⟨by decide, rfl⟩

/-- Claim C3, counterexample: on a run whose only attempt has index -1,
`add_attempt` assigns the new attempt the index 0, not
max(existing indices, 0) + 1 = 1 as the claim states. -/
theorem c3_counterexample :
    ((runNegAttempt.add_attempt Time.default none none none).attempt_history.map
        Attempt.index) = [-1, 0] ∧
    (max (-1 : Int) 0) + 1 = 1 ∧ (0 : Int) ≠ 1 := by
  refine ⟨by decide, by decide, by decide⟩

/-- Claim C3, amended: `add_attempt` appends an attempt whose index is
max(0, m + 1) where m is the maximum existing index (0 for an empty
history); on an empty history the first attempt gets index 1, but when the
maximum existing index m is negative the assigned index is 0, not
max(m, 0) + 1. -/
theorem c3_amended (r : Run) (time : Time)
    (started ended : Option AtomicDateTime) (pause_time : Option TimeSpan) :
    (r.add_attempt time started ended pause_time).attempt_history
      = r.attempt_history ++
        [⟨max 0 (((r.attempt_history.map Attempt.index).max?.getD 0) + 1),
          time, started, ended, pause_time⟩] ∧
    (r.attempt_history = [] →
      (r.add_attempt time started ended pause_time).attempt_history
        = [⟨1, time, started, ended, pause_time⟩]) := by
  constructor
  · rfl
  · intro h
    simp [Run.add_attempt, Run.add_attempt_with_index, h]

/-- Claim C3, amended, witness at a concrete input: the first attempt
added to an empty history gets index 1. -/
theorem c3_amended_witness :
    (Run.add_attempt ⟨"", "", 0, 0, [], mdEmpty, false, [], ["Personal Best"]⟩
        Time.default none none none).attempt_history
      = [⟨1, Time.default, none, none, none⟩] := by
  have h := c3_amended ⟨"", "", 0, 0, [], mdEmpty, false, [], ["Personal Best"]⟩
    Time.default none none none
  exact h.2 rfl

/-- Claim C7: a run with category "Any% (No Tuner)" and a single metadata
variable whose value case-insensitively equals "no" renders the variable
inside the existing parenthetical group: the result is
"Any% (No Tuner, No " followed by the variable's value and ")". -/
theorem c7_extended_category_name (n v : String) (hv : uniEq v "no" = true) :
    (Run.extended_category_name
      ⟨"", "Any% (No Tuner)", 0, 0, [], ⟨"", "", "", false, [(n, v)]⟩, false, [], []⟩
      false false true)
      = "Any% (No Tuner, No " ++ v ++ ")" := by
  have hvl : v.toList.map asciiLower = ['n', 'o'] := by
    have := (beq_iff_eq (a := v.toList.map asciiLower)
      (b := "no".toList.map asciiLower)).mp hv
    simpa using this
  have hyes : uniEq v "yes" = false := by
    unfold uniEq
    rw [hvl]; decide
  unfold Run.extended_category_name
  apply String.ext
  simp [String.data_append, pushToken, variableToken, hyes, hv,
    RunMetadata.variablesList, List.asString]

/-- Claim C7, witness: with the concrete variable ("Tuner?", "No") the
extended category name is "Any% (No Tuner, No No)". -/
theorem c7_extended_category_name_witness :
    (Run.extended_category_name
      ⟨"", "Any% (No Tuner)", 0, 0, [], ⟨"", "", "", false, [("Tuner?", "No")]⟩,
        false, [], []⟩ false false true)
      = "Any% (No Tuner, No No)" := by
  have h := c7_extended_category_name "Tuner?" "No" (by decide)
  simpa using h

/-- Claim C10: for a parenthesis-free category and a single variable whose
value case-insensitively equals "yes", the rendered token is the variable
name with all trailing question marks removed. -/
theorem c10_trailing_question_marks (n v : String) (hv : uniEq v "yes" = true) :
    (Run.extended_category_name
      ⟨"", "Any%", 0, 0, [], ⟨"", "", "", false, [(n, v)]⟩, false, [], []⟩
      false false true)
      = "Any% (" ++ (trimRightQ n.toList).asString ++ ")" := by
  unfold Run.extended_category_name
  apply String.ext
  simp [String.data_append, pushToken, variableToken, hv,
    RunMetadata.variablesList, List.asString]

/-- Claim C10, witness: the variable ("Tuner?", "yes") renders as "Tuner",
giving "Any% (Tuner)". -/
theorem c10_trailing_question_marks_witness :
    (Run.extended_category_name
      ⟨"", "Any%", 0, 0, [], ⟨"", "", "", false, [("Tuner?", "yes")]⟩, false, [], []⟩
      false false true)
      = "Any% (Tuner)" := by
  have h := c10_trailing_question_marks "Tuner?" "yes" (by decide)
  simpa using h

/-- Claim C8: `min_segment_history_index` and `fix_splits` signal the
fatal error (modelled as `none`) exactly when the run has no segments. -/
theorem c8_panics_iff_no_segments (r : Run) :
    (r.min_segment_history_index = none ↔ r.segments = []) ∧
    (r.fix_splits = none ↔ r.segments = []) := by
  have h1 : r.min_segment_history_index = none ↔ r.segments = [] := by
    unfold Run.min_segment_history_index
    rw [List.min?_eq_none_iff, List.map_eq_nil_iff]
  refine ⟨h1, ?_⟩
  unfold Run.fix_splits
  rw [rnv_eq_none_iff]
  rw [← List.length_eq_zero, fixSplits_pre_length, List.length_eq_zero]

theorem find?_filter_ne (l : List (String × SettingValue)) (key k : String)
    (h : k ≠ key) :
    (l.filter (fun e => !(e.1 == key))).find? (fun e => e.1 == k)
      = l.find? (fun e => e.1 == k) := by
  induction l with
  | nil => rfl
  | cons e rest ih =>
    by_cases hek : e.1 = key
    · have h1 : (e.1 == key) = true := by simp [hek]
      have h2 : (e.1 == k) = false := by simp [hek]; exact fun hc => h hc.symm
      simp [List.filter, List.find?, h1, h2, ih]
    · have h1 : (e.1 == key) = false := by simp [hek]
      by_cases hk : e.1 = k
      · have h2 : (e.1 == k) = true := by simp [hk]
        simp [List.filter, List.find?, h1, h2]
      · have h2 : (e.1 == k) = false := by simp [hk]
        simp [List.filter, List.find?, h1, h2, ih]

/-- Claim C9: inserting into a clone of a settings map yields the inserted
value at the inserted key, leaves every other key's lookup identical to
the source map, and the source map's own lookups are untouched (the model
is value-semantic: the copy-on-write `Arc::make_mut` of the source only
affects sharing of backing storage, not observable contents). -/
theorem c9_settings_clone_insert (m1 : SettingsMap) (key k : String)
    (value : SettingValue) (h : k ≠ key) :
    (((m1.clone).insert key value).get key = some value) ∧
    (((m1.clone).insert key value).get k = m1.get k) ∧
    ((m1.clone).get k = m1.get k) := by
  refine ⟨?_, ?_, rfl⟩
  · simp [SettingsMap.clone, SettingsMap.insert, SettingsMap.get, List.find?]
  · have hk : (key == k) = false := by
      simp; exact fun hc => h hc.symm
    simp only [SettingsMap.clone, SettingsMap.insert, SettingsMap.get, List.find?, hk]
    rw [find?_filter_ne _ _ _ h]

/-- Claim C9, witness at a concrete map. -/
theorem c9_settings_clone_insert_witness :
    ((SettingsMap.insert (SettingsMap.clone ⟨[("a", .boolVal true)]⟩)
        "b" (.boolVal false)).get "b" = some (.boolVal false)) ∧
    ((SettingsMap.insert (SettingsMap.clone ⟨[("a", .boolVal true)]⟩)
        "b" (.boolVal false)).get "a" = some (.boolVal true)) := by
  have h := c9_settings_clone_insert ⟨[("a", .boolVal true)]⟩ "b" "a"
    (.boolVal false) (by decide)
  exact ⟨h.1, h.2.1⟩

/-! Pointwise lemmas about `Time` and the `Segment` operations. -/

theorem Time.get_set_self (t : Time) (m : TimingMethod) (v : Option TimeSpan) :
    (t.set m v).get m = v := by
  cases m <;> rfl

theorem Time.get_set_ne (t : Time) (m m' : TimingMethod) (v : Option TimeSpan)
    (h : m' ≠ m) : (t.set m v).get m' = t.get m' := by
  cases m <;> cases m' <;> first | rfl | exact absurd rfl h

theorem find?_filter_keyne {α β : Type} [DecidableEq α] (l : List (α × β)) (j i : α)
    (h : i ≠ j) :
    (l.filter (fun e => !(e.1 == j))).find? (fun e => e.1 == i)
      = l.find? (fun e => e.1 == i) := by
  induction l with
  | nil => rfl
  | cons e rest ih =>
    by_cases hej : e.1 = j
    · have h1 : (e.1 == j) = true := by simp [hej]
      have h2 : (e.1 == i) = false := by
        simp [hej]; exact fun hc => h hc.symm
      simp [List.filter, List.find?, h1, h2, ih]
    · have h1 : (e.1 == j) = false := by simp [hej]
      by_cases hei : e.1 = i
      · have h2 : (e.1 == i) = true := by simp [hei]
        simp [List.filter, List.find?, h1, h2]
      · have h2 : (e.1 == i) = false := by simp [hei]
        simp [List.filter, List.find?, h1, h2, ih]

theorem find?_map_keyfix_ne {α β : Type} [DecidableEq α] (l : List (α × β))
    (f : β → β) (c c' : α) (h : c' ≠ c) :
    (l.map (fun e => if e.1 == c then (e.1, f e.2) else e)).find? (fun e => e.1 == c')
      = l.find? (fun e => e.1 == c') := by
  induction l with
  | nil => rfl
  | cons e rest ih =>
    by_cases hec : e.1 = c
    · have h2 : (e.1 == c') = false := by
        simp [hec]; exact fun hc => h hc.symm
      rw [List.map_cons, if_pos (by simp [hec])]
      rw [List.find?_cons_of_neg _ (by simp [h2]), List.find?_cons_of_neg _ (by simp [h2])]
      exact ih
    · rw [List.map_cons, if_neg (by simp [hec])]
      by_cases hec' : e.1 = c'
      · rw [List.find?_cons_of_pos _ (by simp [hec']),
          List.find?_cons_of_pos _ (by simp [hec'])]
      · rw [List.find?_cons_of_neg _ (by simp [hec']),
          List.find?_cons_of_neg _ (by simp [hec'])]
        exact ih

theorem find?_map_keyfix_self {α β : Type} [DecidableEq α] (l : List (α × β))
    (f : β → β) (c : α) :
    (l.map (fun e => if e.1 == c then (e.1, f e.2) else e)).find? (fun e => e.1 == c)
      = (l.find? (fun e => e.1 == c)).map (fun e => (e.1, f e.2)) := by
  induction l with
  | nil => rfl
  | cons e rest ih =>
    by_cases hec : e.1 = c
    · rw [List.map_cons, if_pos (by simp [hec])]
      rw [List.find?_cons_of_pos _ (by simp [hec]),
        List.find?_cons_of_pos _ (by simp [hec])]
      simp
    · rw [List.map_cons, if_neg (by simp [hec])]
      rw [List.find?_cons_of_neg _ (by simp [hec]),
        List.find?_cons_of_neg _ (by simp [hec])]
      exact ih

theorem ensure_comparison_of_has (s : Segment) (c : String)
    (h : s.hasComparison c = true) : s.ensure_comparison c = s := by
  simp [Segment.ensure_comparison, h]

theorem hasComparison_ensure_self (s : Segment) (c : String) :
    (s.ensure_comparison c).hasComparison c = true := by
  unfold Segment.ensure_comparison
  by_cases h : s.hasComparison c = true
  · rw [if_pos h]; exact h
  · rw [if_neg h]
    unfold Segment.hasComparison
    simp [List.any_append]

theorem hasComparison_ensure_mono (s : Segment) (c c' : String)
    (h : s.hasComparison c' = true) :
    (s.ensure_comparison c).hasComparison c' = true := by
  unfold Segment.ensure_comparison
  by_cases hc : s.hasComparison c = true
  · simp [hc, h]
  · simp only [hc, if_false, Bool.false_eq_true]
    unfold Segment.hasComparison at h ⊢
    simp only [List.any_append, h, Bool.true_or]

theorem comparison_ensure_any (s : Segment) (c c' : String) :
    (s.ensure_comparison c).comparison c' = s.comparison c' := by
  unfold Segment.ensure_comparison
  by_cases hc : s.hasComparison c = true
  · simp [hc]
  · simp only [hc, if_false, Bool.false_eq_true]
    unfold Segment.comparison
    simp only [List.find?_append]
    cases hf : s.comparisons.find? (fun e => e.1 == c') with
    | some e => simp
    | none =>
      simp only [Option.none_or]
      by_cases hcc : c = c'
      · subst hcc
        unfold Segment.hasComparison at hc
        simp only [List.any_eq_true, not_exists, Bool.not_eq_true] at hc
        rw [List.find?_eq_none] at hf
        simp [List.find?, Time.default]
      · have : (c == c') = false := by simp [hcc]
        simp [List.find?, this]

theorem ensure_fields (s : Segment) (c : String) :
    (s.ensure_comparison c).name = s.name ∧
    (s.ensure_comparison c).split_time = s.split_time ∧
    (s.ensure_comparison c).best_segment_time = s.best_segment_time ∧
    (s.ensure_comparison c).segment_history = s.segment_history := by
  unfold Segment.ensure_comparison
  by_cases hc : s.hasComparison c = true <;> simp [hc]

theorem set_comparison_time_self (s : Segment) (c : String) (m : TimingMethod)
    (v : Option TimeSpan) (h : s.hasComparison c = true) :
    (s.set_comparison_time c m v).comparison c = (s.comparison c).set m v := by
  have hcomp : (s.set_comparison_time c m v).comparisons
      = s.comparisons.map (fun e => if e.1 == c then (e.1, e.2.set m v) else e) := rfl
  unfold Segment.comparison
  rw [hcomp, find?_map_keyfix_self s.comparisons (fun x => x.set m v) c]
  cases hf : s.comparisons.find? (fun e => e.1 == c) with
  | some e => simp
  | none =>
    exfalso
    unfold Segment.hasComparison at h
    rw [List.find?_eq_none] at hf
    simp only [List.any_eq_true] at h
    obtain ⟨e, he, hee⟩ := h
    exact (hf e he) hee

theorem set_comparison_time_other (s : Segment) (c c' : String) (m : TimingMethod)
    (v : Option TimeSpan) (h : c' ≠ c) :
    (s.set_comparison_time c m v).comparison c' = s.comparison c' := by
  have hcomp : (s.set_comparison_time c m v).comparisons
      = s.comparisons.map (fun e => if e.1 == c then (e.1, e.2.set m v) else e) := rfl
  unfold Segment.comparison
  rw [hcomp, find?_map_keyfix_ne s.comparisons (fun x => x.set m v) c c' h]

theorem hasComparison_set_comparison_time (s : Segment) (c c' : String)
    (m : TimingMethod) (v : Option TimeSpan) :
    (s.set_comparison_time c m v).hasComparison c' = s.hasComparison c' := by
  unfold Segment.set_comparison_time Segment.hasComparison
  induction s.comparisons with
  | nil => rfl
  | cons e rest ih =>
    by_cases hec : e.1 = c
    · have h1 : (e.1 == c) = true := by simp [hec]
      simp only [List.map_cons, h1, if_true, List.any_cons]
      rw [ih]
    · have h1 : (e.1 == c) = false := by simp [hec]
      simp only [List.map_cons, h1, if_false, Bool.false_eq_true, List.any_cons]
      rw [ih]

theorem set_comparison_time_fields (s : Segment) (c : String) (m : TimingMethod)
    (v : Option TimeSpan) :
    (s.set_comparison_time c m v).name = s.name ∧
    (s.set_comparison_time c m v).split_time = s.split_time ∧
    (s.set_comparison_time c m v).best_segment_time = s.best_segment_time ∧
    (s.set_comparison_time c m v).segment_history = s.segment_history := by
  unfold Segment.set_comparison_time
  simp

theorem set_best_time_get_self (s : Segment) (m : TimingMethod) (v : Option TimeSpan) :
    (s.set_best_time m v).best_segment_time.get m = v := by
  unfold Segment.set_best_time
  exact Time.get_set_self _ _ _

theorem set_best_time_get_ne (s : Segment) (m m' : TimingMethod) (v : Option TimeSpan)
    (h : m' ≠ m) :
    (s.set_best_time m v).best_segment_time.get m' = s.best_segment_time.get m' := by
  unfold Segment.set_best_time
  exact Time.get_set_ne _ _ _ _ h

theorem set_best_time_fields (s : Segment) (m : TimingMethod) (v : Option TimeSpan) :
    (s.set_best_time m v).name = s.name ∧
    (s.set_best_time m v).split_time = s.split_time ∧
    (s.set_best_time m v).comparisons = s.comparisons ∧
    (s.set_best_time m v).segment_history = s.segment_history := by
  unfold Segment.set_best_time
  simp

/-! Lemmas about `remove_duplicates`: the scan only drops synthetic
entries, keeps every actual-run entry, and is idempotent. -/

theorem setInsert_mem (v : Int) (s : List Int) (x : Int) (h : x ∈ s) :
    x ∈ setInsert v s := by
  unfold setInsert
  by_cases hv : v ∈ s
  · rwa [if_pos hv]
  · rw [if_neg hv]; exact List.mem_cons_of_mem _ h

theorem setInsert_of_mem (v : Int) (s : List Int) (h : v ∈ s) :
    setInsert v s = s := by
  unfold setInsert; rw [if_pos h]

theorem setInsert_subset {s s' : List Int} (v : Int) (h : ∀ x ∈ s', x ∈ s) :
    ∀ x ∈ setInsert v s', x ∈ setInsert v s := by
  intro x hx
  unfold setInsert at hx
  by_cases hv : v ∈ s'
  · rw [if_pos hv] at hx; exact setInsert_mem _ _ _ (h x hx)
  · rw [if_neg hv] at hx
    cases List.mem_cons.mp hx with
    | inl he =>
      subst he
      unfold setInsert
      by_cases hv2 : x ∈ s
      · rwa [if_pos hv2]
      · rw [if_neg hv2]; exact List.mem_cons_self _ _
    | inr he => exact setInsert_mem _ _ _ (h x he)

theorem dedupAdvance_mem (s : List Int) (o : Option TimeSpan) (x : Int) (h : x ∈ s) :
    x ∈ dedupAdvance s o := by
  cases o with
  | none => exact h
  | some v => exact setInsert_mem v s x h

theorem dedupAdvance_subset {s s' : List Int} (o : Option TimeSpan)
    (h : ∀ x ∈ s', x ∈ s) : ∀ x ∈ dedupAdvance s' o, x ∈ dedupAdvance s o := by
  cases o with
  | none => exact h
  | some v => exact setInsert_subset v h

theorem dedupKeep_false_advance (rta igt : List Int) (t : Time)
    (h : dedupKeep rta igt t = false) :
    dedupAdvance rta t.real_time = rta ∧ dedupAdvance igt t.game_time = igt := by
  unfold dedupKeep at h
  cases hr : t.real_time with
  | none =>
    cases hg : t.game_time with
    | none => rw [hr, hg] at h; cases h
    | some w =>
      rw [hr, hg] at h
      simp only [decide_eq_false_iff_not, not_not] at h
      exact ⟨rfl, by simp [dedupAdvance, setInsert_of_mem w igt h]⟩
  | some v =>
    cases hg : t.game_time with
    | none =>
      rw [hr, hg] at h
      simp only [decide_eq_false_iff_not, not_not] at h
      exact ⟨by simp [dedupAdvance, setInsert_of_mem v rta h], rfl⟩
    | some w =>
      rw [hr, hg] at h
      simp only [Bool.or_eq_false_iff, decide_eq_false_iff_not, not_not] at h
      refine ⟨by simp [dedupAdvance, setInsert_of_mem v rta h.1],
        by simp [dedupAdvance, setInsert_of_mem w igt h.2]⟩

theorem dedupKeep_mono (rta igt rta' igt' : List Int) (t : Time)
    (hr : ∀ x ∈ rta', x ∈ rta) (hg : ∀ x ∈ igt', x ∈ igt)
    (h : dedupKeep rta igt t = true) : dedupKeep rta' igt' t = true := by
  unfold dedupKeep at h ⊢
  cases hrt : t.real_time with
  | none =>
    cases hgt : t.game_time with
    | none => rfl
    | some w =>
      rw [hrt, hgt] at h
      simp only [decide_eq_true_eq] at h ⊢
      exact fun hc => h (hg w hc)
  | some v =>
    cases hgt : t.game_time with
    | none =>
      rw [hrt, hgt] at h
      simp only [decide_eq_true_eq] at h ⊢
      exact fun hc => h (hr v hc)
    | some w =>
      rw [hrt, hgt] at h
      simp only [Bool.or_eq_true, decide_eq_true_eq] at h ⊢
      cases h with
      | inl h1 => exact Or.inl fun hc => h1 (hr v hc)
      | inr h1 => exact Or.inr fun hc => h1 (hg w hc)

theorem dedupScan_sublist (h : SegmentHistory) :
    ∀ rta igt, (dedupScan rta igt h).Sublist h := by
  induction h with
  | nil => intro rta igt; simp [dedupScan]
  | cons e rest ih =>
    intro rta igt
    simp only [dedupScan]
    by_cases h1 : (1 : Int) ≤ e.1
    · rw [if_pos h1]
      exact List.Sublist.cons₂ e (ih rta igt)
    · rw [if_neg h1]
      by_cases h2 : dedupKeep rta igt e.2 = true
      · rw [if_pos h2]
        exact List.Sublist.cons₂ e (ih _ _)
      · rw [if_neg h2]
        exact List.Sublist.cons e (ih _ _)

theorem dedupScan_actual (h : SegmentHistory) :
    ∀ rta igt, (dedupScan rta igt h).filter (fun e => decide (1 ≤ e.1))
      = h.filter (fun e => decide (1 ≤ e.1)) := by
  induction h with
  | nil => intro rta igt; rfl
  | cons e rest ih =>
    intro rta igt
    simp only [dedupScan]
    by_cases h1 : (1 : Int) ≤ e.1
    · rw [if_pos h1]
      simp only [List.filter_cons, decide_eq_true h1, if_true, ih]
    · rw [if_neg h1]
      have hd : decide (1 ≤ e.1) = false := by simp [h1]
      by_cases h2 : dedupKeep rta igt e.2 = true
      · rw [if_pos h2]
        simp [List.filter_cons, hd, ih]
      · rw [if_neg h2]
        simp [List.filter_cons, hd, ih]

theorem dedupScan_idem (h : SegmentHistory) :
    ∀ rta igt, dedupScan rta igt (dedupScan rta igt h) = dedupScan rta igt h := by
  induction h with
  | nil => intro rta igt; rfl
  | cons e rest ih =>
    intro rta igt
    simp only [dedupScan]
    by_cases h1 : (1 : Int) ≤ e.1
    · rw [if_pos h1]
      simp only [dedupScan]
      rw [if_pos h1, ih]
    · rw [if_neg h1]
      by_cases h2 : dedupKeep rta igt e.2 = true
      · rw [if_pos h2]
        simp only [dedupScan]
        rw [if_neg h1, if_pos h2, ih]
      · rw [if_neg h2]
        obtain ⟨ha, hb⟩ := dedupKeep_false_advance rta igt e.2 (by simpa using h2)
        rw [ha, hb]
        exact ih rta igt

theorem dedupScan_of_sublist (h : SegmentHistory) :
    ∀ h' rta igt rta' igt', h'.Sublist h → dedupScan rta igt h = h →
      (∀ x ∈ rta', x ∈ rta) → (∀ x ∈ igt', x ∈ igt) →
      dedupScan rta' igt' h' = h' := by
  induction h with
  | nil =>
    intro h' rta igt rta' igt' hsub _ _ _
    rw [List.sublist_nil.mp hsub]
    rfl
  | cons e rest ih =>
    intro h' rta igt rta' igt' hsub hall hr hg
    -- first decompose what the full scan did at the head
    by_cases h1 : (1 : Int) ≤ e.1
    · have hall' : dedupScan rta igt rest = rest := by
        have := hall
        simp only [dedupScan] at this
        rw [if_pos h1] at this
        exact (List.cons.injEq _ _ _ _).mp this |>.2
      cases hsub with
      | cons _ hsub' => exact ih h' rta igt rta' igt' hsub' hall' hr hg
      | cons₂ _ hsub' =>
        simp only [dedupScan]
        rw [if_pos h1, ih _ rta igt rta' igt' hsub' hall' hr hg]
    · have hkeep : dedupKeep rta igt e.2 = true := by
        by_contra hk
        have hk' : dedupKeep rta igt e.2 = false := by simpa using hk
        simp only [dedupScan] at hall
        rw [if_neg h1, if_neg (by simp [hk'])] at hall
        have hlen := (dedupScan_sublist rest
          (dedupAdvance rta e.2.real_time) (dedupAdvance igt e.2.game_time)).length_le
        rw [hall] at hlen
        simp at hlen
      have hall' :
          dedupScan (dedupAdvance rta e.2.real_time) (dedupAdvance igt e.2.game_time) rest
            = rest := by
        have := hall
        simp only [dedupScan] at this
        rw [if_neg h1, if_pos hkeep] at this
        exact (List.cons.injEq _ _ _ _).mp this |>.2
      cases hsub with
      | cons _ hsub' =>
        exact ih h' _ _ rta' igt' hsub' hall'
          (fun x hx => dedupAdvance_mem _ _ x (hr x hx))
          (fun x hx => dedupAdvance_mem _ _ x (hg x hx))
      | cons₂ _ hsub' =>
        simp only [dedupScan]
        rw [if_neg h1, if_pos (dedupKeep_mono rta igt rta' igt' e.2 hr hg hkeep)]
        rw [ih _ _ _ (dedupAdvance rta' e.2.real_time) (dedupAdvance igt' e.2.game_time)
          hsub' hall' (dedupAdvance_subset _ hr) (dedupAdvance_subset _ hg)]

theorem map_eq_self_of {α : Type} : ∀ (l : List α) (f : α → α),
    (∀ x ∈ l, f x = x) → l.map f = l
  | [], _, _ => rfl
  | x :: rest, f, h => by
    rw [List.map_cons, h x (List.mem_cons_self _ _),
      map_eq_self_of rest f (fun y hy => h y (List.mem_cons_of_mem _ hy))]

/-- A segment is at a dedup fixpoint when the seeded scan keeps its entire
history. -/
def dedupFixedSeg (s : Segment) : Prop :=
  dedupScan (seedsRT s.segment_history) (seedsGT s.segment_history) s.segment_history
    = s.segment_history

theorem seeds_dedup_rt (rta igt : List Int) (h : SegmentHistory) :
    seedsRT (dedupScan rta igt h) = seedsRT h := by
  unfold seedsRT
  rw [dedupScan_actual]

theorem seeds_dedup_gt (rta igt : List Int) (h : SegmentHistory) :
    seedsGT (dedupScan rta igt h) = seedsGT h := by
  unfold seedsGT
  rw [dedupScan_actual]

theorem removeDuplicatesSeg_fixed (s : Segment) :
    dedupFixedSeg (removeDuplicatesSeg s) := by
  unfold dedupFixedSeg removeDuplicatesSeg
  simp only
  rw [seeds_dedup_rt, seeds_dedup_gt, dedupScan_idem]

theorem removeDuplicatesSeg_id (s : Segment) (h : dedupFixedSeg s) :
    removeDuplicatesSeg s = s := by
  unfold removeDuplicatesSeg
  unfold dedupFixedSeg at h
  rw [h]

theorem seedsRT_subset_of_sublist {h' h : SegmentHistory} (hs : h'.Sublist h) :
    ∀ x ∈ seedsRT h', x ∈ seedsRT h :=
  fun _ hx => ((hs.filter _).filterMap _).subset hx

theorem seedsGT_subset_of_sublist {h' h : SegmentHistory} (hs : h'.Sublist h) :
    ∀ x ∈ seedsGT h', x ∈ seedsGT h :=
  fun _ hx => ((hs.filter _).filterMap _).subset hx

theorem dedupFixedSeg_of_sublist (s' s : Segment)
    (hs : s'.segment_history.Sublist s.segment_history) (h : dedupFixedSeg s) :
    dedupFixedSeg s' :=
  dedupScan_of_sublist s.segment_history s'.segment_history _ _ _ _ hs h
    (seedsRT_subset_of_sublist hs) (seedsGT_subset_of_sublist hs)

/-- Run-level dedup fixpoint. -/
def DedupFixed (segs : List Segment) : Prop := ∀ s ∈ segs, dedupFixedSeg s

theorem remove_duplicates_establishes (r : Run) :
    DedupFixed r.remove_duplicates.segments := by
  intro s hs
  unfold Run.remove_duplicates at hs
  simp only [List.mem_map] at hs
  obtain ⟨s0, _, rfl⟩ := hs
  exact removeDuplicatesSeg_fixed s0

theorem remove_duplicates_id (r : Run) (h : DedupFixed r.segments) :
    r.remove_duplicates = r := by
  unfold Run.remove_duplicates
  rw [map_eq_self_of _ _ (fun s hs => removeDuplicatesSeg_id s (h s hs))]

/-! Lemmas about `remove_none_values`. The state of one segment at one
row is abstracted as `rowMark`: `none` when the row is missing from the
segment's history, `some true` when it is present and fully absent, and
`some false` when it is present with a concrete time. `rowRun` replays the
cache discipline of the row scan over those marks, returning the final
pending count, or `none` when a flush with a non-empty cache occurred. -/

def rowMark (i : Int) (s : Segment) : Option Bool :=
  (s.segment_history.get i).map (fun t => t.isEmptyTime)

def rowView (i : Int) (segs : List Segment) : List (Option Bool) :=
  segs.map (rowMark i)

def rowRun : List (Option Bool) → Nat → Option Nat
  | [], p => some p
  | some true :: rest, p => rowRun rest (p + 1)
  | some false :: rest, _ => rowRun rest 0
  | none :: rest, p => if p = 0 then rowRun rest 0 else none

/-- A row is good when replaying it removes nothing: no flush ever sees a
non-empty cache and the final cache is empty. -/
def goodRow (l : List (Option Bool)) : Prop := rowRun l 0 = some 0

theorem rowRun_append (A : List (Option Bool)) :
    ∀ (B : List (Option Bool)) (p : Nat),
      rowRun (A ++ B) p = (rowRun A p).bind (fun q => rowRun B q) := by
  induction A with
  | nil => intro B p; rfl
  | cons x rest ih =>
    intro B p
    match x with
    | some true => rw [List.cons_append]; exact ih B (p + 1)
    | some false => rw [List.cons_append]; exact ih B 0
    | none =>
      rw [List.cons_append]
      show (if p = 0 then rowRun (rest ++ B) 0 else none) = _
      by_cases hp : p = 0
      · rw [if_pos hp]
        show _ = (if p = 0 then rowRun rest 0 else none).bind _
        rw [if_pos hp]
        exact ih B 0
      · rw [if_neg hp]
        show _ = (if p = 0 then rowRun rest 0 else none).bind _
        rw [if_neg hp]
        rfl

theorem rowRun_trues (B : List (Option Bool)) (h : ∀ x ∈ B, x = some true) :
    ∀ p, rowRun B p = some (p + B.length) := by
  induction B with
  | nil => intro p; simp [rowRun]
  | cons x rest ih =>
    intro p
    rw [h x (List.mem_cons_self _ _)]
    show rowRun rest (p + 1) = _
    rw [ih (fun y hy => h y (List.mem_cons_of_mem _ hy)) (p + 1)]
    simp
    omega

theorem rowRun_nones (B : List (Option Bool)) (h : ∀ x ∈ B, x = none) :
    rowRun B 0 = some 0 := by
  induction B with
  | nil => rfl
  | cons x rest ih =>
    rw [h x (List.mem_cons_self _ _)]
    show (if (0 : Nat) = 0 then rowRun rest 0 else none) = some 0
    rw [if_pos rfl]
    exact ih (fun y hy => h y (List.mem_cons_of_mem _ hy))

theorem removeEntry_get_self (i : Int) (s : Segment) :
    (removeEntry i s).segment_history.get i = none := by
  unfold removeEntry SegmentHistory.remove SegmentHistory.get
  simp only
  rw [List.find?_eq_none.mpr]
  · rfl
  · intro e he
    have := (List.mem_filter.mp he).2
    simp only [Bool.not_eq_true'] at this
    simp [this]

theorem removeEntry_get_ne (i j : Int) (s : Segment) (h : i ≠ j) :
    (removeEntry j s).segment_history.get i = s.segment_history.get i := by
  unfold removeEntry SegmentHistory.remove SegmentHistory.get
  simp only
  rw [show (s.segment_history.filter (fun e => !(e.1 == j)))
      = (s.segment_history.filter (fun e => !(e.1 == j))) from rfl]
  rw [find?_filter_keyne s.segment_history j i h]

theorem removeEntry_fields (i : Int) (s : Segment) :
    (removeEntry i s).name = s.name ∧
    (removeEntry i s).split_time = s.split_time ∧
    (removeEntry i s).best_segment_time = s.best_segment_time ∧
    (removeEntry i s).comparisons = s.comparisons ∧
    (removeEntry i s).segment_history.Sublist s.segment_history := by
  unfold removeEntry SegmentHistory.remove
  exact ⟨rfl, rfl, rfl, rfl, List.filter_sublist _⟩

/-- How one row scan can change one segment: either untouched, or the row
entry removed, in which case the entry was present and fully absent. -/
def rowRel (i : Int) (s' s : Segment) : Prop :=
  s' = s ∨ (s' = removeEntry i s ∧
    ∃ t, s.segment_history.get i = some t ∧ t.isEmptyTime = true)

theorem forall₂_rowRel_pending (i : Int) (pending : List Segment)
    (hp : ∀ s ∈ pending, ∃ t, s.segment_history.get i = some t ∧ t.isEmptyTime = true) :
    List.Forall₂ (rowRel i) (pending.map (removeEntry i)) pending := by
  induction pending with
  | nil => exact List.Forall₂.nil
  | cons s rest ih =>
    rw [List.map_cons]
    exact List.Forall₂.cons (Or.inr ⟨rfl, hp s (List.mem_cons_self _ _)⟩)
      (ih (fun y hy => hp y (List.mem_cons_of_mem _ hy)))

theorem forall₂_rowRel_refl (i : Int) (l : List Segment) :
    List.Forall₂ (rowRel i) l l := by
  induction l with
  | nil => exact List.Forall₂.nil
  | cons s rest ih => exact List.Forall₂.cons (Or.inl rfl) ih

theorem forall₂_append_rel {α β : Type} {R : α → β → Prop} :
    ∀ {a c : List α} {b d : List β}, List.Forall₂ R a b → List.Forall₂ R c d →
      List.Forall₂ R (a ++ c) (b ++ d) := by
  intro a c b d h1 h2
  induction h1 with
  | nil => exact h2
  | cons hx h ih => exact List.Forall₂.cons hx ih

theorem scanRowAux_forall₂ (i : Int) (segs : List Segment) :
    ∀ (acc pending A : List Segment),
      List.Forall₂ (rowRel i) acc A →
      (∀ s ∈ pending, ∃ t, s.segment_history.get i = some t ∧ t.isEmptyTime = true) →
      List.Forall₂ (rowRel i) (scanRowAux i acc pending segs) (A ++ pending ++ segs) := by
  induction segs with
  | nil =>
    intro acc pending A hacc hp
    simp only [scanRowAux, List.append_nil]
    exact forall₂_append_rel hacc (forall₂_rowRel_pending i pending hp)
  | cons s rest ih =>
    intro acc pending A hacc hp
    cases hg : s.segment_history.get i with
    | none =>
      simp only [scanRowAux, hg]
      have h1 := ih (acc ++ pending.map (removeEntry i) ++ [s]) [] (A ++ pending ++ [s])
        (by
          refine forall₂_append_rel ?_ ?_
          · exact forall₂_append_rel hacc (forall₂_rowRel_pending i pending hp)
          · exact List.Forall₂.cons (Or.inl rfl) List.Forall₂.nil)
        (by intro y hy; cases hy)
      simp only [List.append_nil] at h1
      have heq : A ++ pending ++ [s] ++ rest = A ++ pending ++ (s :: rest) := by
        simp
      rwa [heq] at h1
    | some t =>
      by_cases he : t.isEmptyTime = true
      · simp only [scanRowAux, hg, he, if_true]
        have h1 := ih acc (pending ++ [s]) A hacc
          (by
            intro y hy
            cases List.mem_append.mp hy with
            | inl hy' => exact hp y hy'
            | inr hy' =>
              have : y = s := by simpa using hy'
              subst this
              exact ⟨t, hg, he⟩)
        have heq : A ++ (pending ++ [s]) ++ rest = A ++ pending ++ (s :: rest) := by
          simp
        rwa [heq] at h1
      · simp only [scanRowAux, hg, he, if_false, Bool.false_eq_true]
        have h1 := ih (acc ++ pending ++ [s]) [] (A ++ pending ++ [s])
          (by
            refine forall₂_append_rel ?_ ?_
            · exact forall₂_append_rel hacc (forall₂_rowRel_refl i pending)
            · exact List.Forall₂.cons (Or.inl rfl) List.Forall₂.nil)
          (by intro y hy; cases hy)
        simp only [List.append_nil] at h1
        have heq : A ++ pending ++ [s] ++ rest = A ++ pending ++ (s :: rest) := by
          simp
        rwa [heq] at h1

theorem scanRow_forall₂ (i : Int) (segs : List Segment) :
    List.Forall₂ (rowRel i) (scanRow i segs) segs := by
  have := scanRowAux_forall₂ i segs [] [] [] List.Forall₂.nil (by intro y hy; cases hy)
  simpa [scanRow] using this

/-- The per-segment summary of any composition of reconciliation history
passes: every field but the history is unchanged and the history is a
sublist of the original. -/
def histRel (s' s : Segment) : Prop :=
  s'.name = s.name ∧ s'.split_time = s.split_time ∧
  s'.best_segment_time = s.best_segment_time ∧ s'.comparisons = s.comparisons ∧
  s'.segment_history.Sublist s.segment_history

theorem histRel_refl (s : Segment) : histRel s s :=
  ⟨rfl, rfl, rfl, rfl, List.Sublist.refl _⟩

theorem histRel_trans {a b c : Segment} (h1 : histRel a b) (h2 : histRel b c) :
    histRel a c :=
  ⟨h1.1.trans h2.1, h1.2.1.trans h2.2.1, h1.2.2.1.trans h2.2.2.1,
    h1.2.2.2.1.trans h2.2.2.2.1, h1.2.2.2.2.trans h2.2.2.2.2⟩

theorem rowRel_histRel {i : Int} {s' s : Segment} (h : rowRel i s' s) :
    histRel s' s := by
  cases h with
  | inl h => subst h; exact histRel_refl _
  | inr h =>
    rw [h.1]
    obtain ⟨h1, h2, h3, h4, h5⟩ := removeEntry_fields i s
    exact ⟨h1, h2, h3, h4, h5⟩

theorem forall₂_histRel_refl (l : List Segment) : List.Forall₂ histRel l l := by
  induction l with
  | nil => exact List.Forall₂.nil
  | cons s rest ih => exact List.Forall₂.cons (histRel_refl s) ih

theorem forall₂_histRel_trans {a b c : List Segment}
    (h1 : List.Forall₂ histRel a b) (h2 : List.Forall₂ histRel b c) :
    List.Forall₂ histRel a c := by
  induction h1 generalizing c with
  | nil => cases h2; exact List.Forall₂.nil
  | cons hx h1' ih =>
    cases h2 with
    | cons hy h2' => exact List.Forall₂.cons (histRel_trans hx hy) (ih h2')

theorem scanRow_histRel (i : Int) (segs : List Segment) :
    List.Forall₂ histRel (scanRow i segs) segs :=
  (scanRow_forall₂ i segs).imp (fun _ _ h => rowRel_histRel h)

theorem foldl_scanRow_histRel (rows : List Int) :
    ∀ segs, List.Forall₂ histRel
      (rows.foldl (fun segs i => scanRow i segs) segs) segs := by
  induction rows with
  | nil => intro segs; exact forall₂_histRel_refl segs
  | cons j rest ih =>
    intro segs
    rw [List.foldl_cons]
    exact forall₂_histRel_trans (ih (scanRow j segs)) (scanRow_histRel j segs)

theorem rnvSegments_histRel (r : Run) (minIdx : Int) :
    List.Forall₂ histRel (rnvSegments r minIdx) r.segments :=
  foldl_scanRow_histRel _ r.segments

theorem rowMark_some_true {i : Int} {s : Segment} (h : rowMark i s = some true) :
    ∃ t, s.segment_history.get i = some t ∧ t.isEmptyTime = true := by
  unfold rowMark at h
  cases hg : s.segment_history.get i with
  | none => rw [hg] at h; cases h
  | some t =>
    rw [hg] at h
    simp only [Option.map_some', Option.some.injEq] at h
    exact ⟨t, rfl, h⟩

theorem rowMark_some_false {i : Int} {s : Segment} (h : rowMark i s = some false) :
    ∃ t, s.segment_history.get i = some t ∧ t.isEmptyTime = false := by
  unfold rowMark at h
  cases hg : s.segment_history.get i with
  | none => rw [hg] at h; cases h
  | some t =>
    rw [hg] at h
    simp only [Option.map_some', Option.some.injEq] at h
    exact ⟨t, rfl, h⟩

theorem rowMark_none {i : Int} {s : Segment} (h : rowMark i s = none) :
    s.segment_history.get i = none := by
  unfold rowMark at h
  cases hg : s.segment_history.get i with
  | none => rfl
  | some t => rw [hg] at h; cases h

/-- A good row view makes the row scan the identity. -/
theorem scanRowAux_of_rowRun (i : Int) (segs : List Segment) :
    ∀ (acc pending : List Segment),
      rowRun (List.map (rowMark i) segs) pending.length = some 0 →
      scanRowAux i acc pending segs = acc ++ pending ++ segs := by
  induction segs with
  | nil =>
    intro acc pending h
    simp only [List.map_nil, rowRun, Option.some.injEq] at h
    have : pending = [] := List.length_eq_zero.mp h
    subst this
    simp [scanRowAux]
  | cons s rest ih =>
    intro acc pending h
    simp only [List.map_cons] at h
    cases hm : rowMark i s with
    | some b =>
      cases b with
      | true =>
        obtain ⟨t, hg, he⟩ := rowMark_some_true hm
        rw [hm] at h
        have h' : rowRun (List.map (rowMark i) rest) (pending ++ [s]).length = some 0 := by
          simpa using h
        simp only [scanRowAux, hg, he, if_true]
        rw [ih acc (pending ++ [s]) h']
        simp
      | false =>
        obtain ⟨t, hg, he⟩ := rowMark_some_false hm
        rw [hm] at h
        have h' : rowRun (List.map (rowMark i) rest) ([] : List Segment).length = some 0 := by
          simpa using h
        simp only [scanRowAux, hg, he, if_false, Bool.false_eq_true]
        rw [ih (acc ++ pending ++ [s]) [] h']
        simp
    | none =>
      have hg := rowMark_none hm
      rw [hm] at h
      have hp : pending.length = 0 := by
        by_contra hp
        have hnone : rowRun (none :: List.map (rowMark i) rest) pending.length = none := by
          show (if pending.length = 0 then rowRun (List.map (rowMark i) rest) 0 else none)
            = none
          rw [if_neg hp]
        rw [hnone] at h
        cases h
      have hpe : pending = [] := List.length_eq_zero.mp hp
      subst hpe
      have h' : rowRun (List.map (rowMark i) rest) ([] : List Segment).length = some 0 := by
        have h2 : rowRun (none :: List.map (rowMark i) rest) 0
            = rowRun (List.map (rowMark i) rest) 0 := by
          show (if (0 : Nat) = 0 then rowRun (List.map (rowMark i) rest) 0 else none) = _
          rw [if_pos rfl]
        simp only [List.length_nil] at h ⊢
        rw [h2] at h
        exact h
      simp only [scanRowAux, hg]
      rw [ih (acc ++ List.map (removeEntry i) [] ++ [s]) [] h']
      simp

theorem scanRow_of_good (i : Int) (segs : List Segment)
    (h : goodRow (rowView i segs)) : scanRow i segs = segs := by
  have h' : rowRun (List.map (rowMark i) segs) ([] : List Segment).length = some 0 := h
  have := scanRowAux_of_rowRun i segs [] [] h'
  simpa [scanRow] using this

theorem rowMarks_removed_nones (i : Int) (pending : List Segment) :
    ∀ x ∈ List.map (rowMark i) (pending.map (removeEntry i)), x = none := by
  intro x hx
  simp only [List.map_map, List.mem_map] at hx
  obtain ⟨y, _, rfl⟩ := hx
  simp only [Function.comp]
  unfold rowMark
  rw [removeEntry_get_self]
  rfl

/-- The row scan leaves a good row view behind. -/
theorem scanRowAux_good (i : Int) (segs : List Segment) :
    ∀ (acc pending : List Segment),
      rowRun (List.map (rowMark i) acc) 0 = some 0 →
      (∀ s ∈ pending, rowMark i s = some true) →
      rowRun (List.map (rowMark i) (scanRowAux i acc pending segs)) 0 = some 0 := by
  induction segs with
  | nil =>
    intro acc pending hacc hp
    simp only [scanRowAux, List.map_append]
    rw [rowRun_append, hacc, Option.some_bind]
    exact rowRun_nones _ (rowMarks_removed_nones i pending)
  | cons s rest ih =>
    intro acc pending hacc hp
    cases hg : s.segment_history.get i with
    | none =>
      simp only [scanRowAux, hg]
      apply ih
      · simp only [List.map_append]
        rw [rowRun_append, rowRun_append, hacc, Option.some_bind,
          rowRun_nones _ (rowMarks_removed_nones i pending), Option.some_bind]
        have hms : rowMark i s = none := by
          unfold rowMark
          rw [hg]
          rfl
        simp only [List.map_cons, List.map_nil, hms]
        rfl
      · intro y hy; cases hy
    | some t =>
      by_cases he : t.isEmptyTime = true
      · simp only [scanRowAux, hg, he, if_true]
        apply ih acc (pending ++ [s]) hacc
        intro y hy
        cases List.mem_append.mp hy with
        | inl hy1 => exact hp y hy1
        | inr hy1 =>
          have : y = s := by simpa using hy1
          subst this
          unfold rowMark
          rw [hg]
          simp [he]
      · simp only [scanRowAux, hg, he, if_false, Bool.false_eq_true]
        apply ih (acc ++ pending ++ [s]) []
        · simp only [List.map_append]
          rw [rowRun_append, rowRun_append, hacc, Option.some_bind]
          have h1 : rowRun (List.map (rowMark i) pending) 0
              = some (0 + (List.map (rowMark i) pending).length) := by
            apply rowRun_trues
            intro x hx
            simp only [List.mem_map] at hx
            obtain ⟨y, hy, rfl⟩ := hx
            exact hp y hy
          rw [h1, Option.some_bind]
          have hms : rowMark i s = some false := by
            unfold rowMark
            rw [hg]
            simp only [Option.map_some', Option.some.injEq]
            simpa using he
          simp only [List.map_cons, List.map_nil, hms]
          rfl
        · intro y hy; cases hy

theorem scanRow_good (i : Int) (segs : List Segment) :
    goodRow (rowView i (scanRow i segs)) :=
  scanRowAux_good i segs [] [] rfl (by intro y hy; cases hy)

theorem rowMark_rowRel_ne {i j : Int} (hij : i ≠ j) {s' s : Segment}
    (h : rowRel j s' s) : rowMark i s' = rowMark i s := by
  cases h with
  | inl h => rw [h]
  | inr h =>
    rw [h.1]
    unfold rowMark
    rw [removeEntry_get_ne i j s hij]

theorem rowView_eq_of_forall₂ {i : Int} {l' l : List Segment}
    (h : List.Forall₂ (fun s' s => rowMark i s' = rowMark i s) l' l) :
    rowView i l' = rowView i l := by
  induction h with
  | nil => rfl
  | cons hx _ ih =>
    unfold rowView at ih ⊢
    simp only [List.map_cons, hx, ih]

theorem rowView_scanRow_ne (i j : Int) (hij : i ≠ j) (segs : List Segment) :
    rowView i (scanRow j segs) = rowView i segs :=
  rowView_eq_of_forall₂
    ((scanRow_forall₂ j segs).imp (fun _ _ h => rowMark_rowRel_ne hij h))

theorem rowView_foldl_ne (i : Int) (rows : List Int) (hrow : i ∉ rows) :
    ∀ segs, rowView i (rows.foldl (fun segs k => scanRow k segs) segs)
      = rowView i segs := by
  induction rows with
  | nil => intro segs; rfl
  | cons j rest ih =>
    intro segs
    rw [List.foldl_cons]
    have hj : i ≠ j := fun hc => hrow (hc ▸ List.mem_cons_self _ _)
    have hr : i ∉ rest := fun hc => hrow (List.mem_cons_of_mem _ hc)
    rw [ih hr, rowView_scanRow_ne i j hj]

/-- After processing all rows, every processed row's view is good. -/
theorem foldl_scanRow_good (rows : List Int) :
    ∀ (segs : List Segment) (i : Int), i ∈ rows →
      goodRow (rowView i (rows.foldl (fun segs k => scanRow k segs) segs)) := by
  induction rows with
  | nil => intro segs i hi; cases hi
  | cons j rest ih =>
    intro segs i hi
    rw [List.foldl_cons]
    by_cases hr : i ∈ rest
    · exact ih (scanRow j segs) i hr
    · have hij : i = j := by
        cases List.mem_cons.mp hi with
        | inl h => exact h
        | inr h => exact absurd h hr
      subst hij
      unfold goodRow
      rw [rowView_foldl_ne i rest hr]
      exact scanRow_good i segs

theorem foldl_scanRow_id (rows : List Int) (segs : List Segment)
    (h : ∀ i ∈ rows, scanRow i segs = segs) :
    rows.foldl (fun segs k => scanRow k segs) segs = segs := by
  induction rows with
  | nil => rfl
  | cons j rest ih =>
    rw [List.foldl_cons, h j (List.mem_cons_self _ _)]
    exact ih (fun i hi => h i (List.mem_cons_of_mem _ hi))

theorem min?_le_of_mem (l : List Int) : ∀ (m : Int), l.min? = some m →
    ∀ x ∈ l, m ≤ x := by
  induction l with
  | nil => intro m h; cases h
  | cons a rest ih =>
    intro m h x hx
    rw [List.min?_cons] at h
    cases hr : rest.min? with
    | none =>
      rw [hr] at h
      simp only [Option.elim, Option.some.injEq] at h
      have : rest = [] := List.min?_eq_none_iff.mp hr
      subst this
      simp at hx
      subst hx
      omega
    | some mr =>
      rw [hr] at h
      simp only [Option.elim, Option.some.injEq] at h
      cases List.mem_cons.mp hx with
      | inl he =>
        subst he; subst h
        exact min_le_left _ _
      | inr he =>
        have h2 := ih mr hr x he
        subst h
        have h3 : min a mr ≤ mr := min_le_right _ _
        omega

theorem minIndex_le_keys (h : SegmentHistory) (e : Int × Time) (he : e ∈ h) :
    SegmentHistory.minIndex h ≤ e.1 := by
  unfold SegmentHistory.minIndex
  cases hm : (h.map (fun e => e.1)).min? with
  | none =>
    exfalso
    rw [List.min?_eq_none_iff, List.map_eq_nil_iff] at hm
    subst hm
    cases he
  | some m =>
    simp only [Option.getD_some]
    exact min?_le_of_mem _ m hm e.1 (List.mem_map.mpr ⟨e, he, rfl⟩)

theorem run_min_le_keys (r : Run) (minIdx : Int)
    (h : r.min_segment_history_index = some minIdx) :
    ∀ s ∈ r.segments, ∀ e ∈ s.segment_history, minIdx ≤ e.1 := by
  intro s hs e he
  unfold Run.min_segment_history_index at h
  have h1 : minIdx ≤ SegmentHistory.minIndex s.segment_history :=
    min?_le_of_mem _ minIdx h _ (List.mem_map.mpr ⟨s, hs, rfl⟩)
  exact h1.trans (minIndex_le_keys _ e he)

theorem mem_rangeInt {lo hi i : Int} : i ∈ rangeInt lo hi ↔ lo ≤ i ∧ i < hi := by
  unfold rangeInt
  rw [List.mem_map]
  constructor
  · rintro ⟨k, hk, rfl⟩
    rw [List.mem_range] at hk
    omega
  · rintro ⟨h1, h2⟩
    refine ⟨(i - lo).toNat, ?_, ?_⟩
    · rw [List.mem_range]
      omega
    · omega

theorem hist_get_none_of_no_key (h : SegmentHistory) (i : Int)
    (hk : ∀ e ∈ h, e.1 ≠ i) : h.get i = none := by
  unfold SegmentHistory.get
  rw [List.find?_eq_none.mpr]
  · rfl
  · intro e he
    simp only [Bool.not_eq_true]
    simp [hk e he]

theorem goodRow_of_no_keys (i : Int) (segs : List Segment)
    (h : ∀ s ∈ segs, ∀ e ∈ s.segment_history, e.1 ≠ i) :
    goodRow (rowView i segs) := by
  unfold goodRow rowView
  apply rowRun_nones
  intro x hx
  simp only [List.mem_map] at hx
  obtain ⟨s, hs, rfl⟩ := hx
  unfold rowMark
  rw [hist_get_none_of_no_key s.segment_history i (h s hs)]
  rfl

theorem entries_pred_of_histRel {P : Int × Time → Prop} {segs' segs : List Segment}
    (h : List.Forall₂ histRel segs' segs)
    (hp : ∀ s ∈ segs, ∀ e ∈ s.segment_history, P e) :
    ∀ s' ∈ segs', ∀ e ∈ s'.segment_history, P e := by
  induction h with
  | nil => intro s' hs'; cases hs'
  | cons hx h ih =>
    intro s' hs' e he
    cases List.mem_cons.mp hs' with
    | inl h1 =>
      subst h1
      exact hp _ (List.mem_cons_self _ _) e (hx.2.2.2.2.subset he)
    | inr h1 =>
      exact ih (fun s hs => hp s (List.mem_cons_of_mem _ hs)) s' h1 e he

theorem min_idx_none_iff (r : Run) :
    r.min_segment_history_index = none ↔ r.segments = [] := by
  unfold Run.min_segment_history_index
  rw [List.min?_eq_none_iff, List.map_eq_nil_iff]

theorem rnvSegments_good (r : Run) (minIdx : Int)
    (hmin : r.min_segment_history_index = some minIdx) :
    ∀ i : Int, i < (r.max_attempt_history_index).getD 0 + 1 →
      goodRow (rowView i (rnvSegments r minIdx)) := by
  intro i hi
  by_cases hlo : minIdx ≤ i
  · exact foldl_scanRow_good _ r.segments i (mem_rangeInt.mpr ⟨hlo, hi⟩)
  · apply goodRow_of_no_keys
    have hkeys : ∀ s ∈ r.segments, ∀ e ∈ s.segment_history, minIdx ≤ e.1 :=
      run_min_le_keys r minIdx hmin
    have h2 := entries_pred_of_histRel (rnvSegments_histRel r minIdx) hkeys
    intro s hs e he
    have := h2 s hs e he
    omega

theorem remove_none_values_fixpoint (r' : Run)
    (hne : r'.segments ≠ [])
    (hgood : ∀ i : Int, i < (r'.max_attempt_history_index).getD 0 + 1 →
      goodRow (rowView i r'.segments)) :
    r'.remove_none_values = some r' := by
  unfold Run.remove_none_values
  cases hm : r'.min_segment_history_index with
  | none => exact absurd ((min_idx_none_iff r').mp hm) hne
  | some minIdx =>
    have hseg : rnvSegments r' minIdx = r'.segments := by
      unfold rnvSegments
      apply foldl_scanRow_id
      intro i hi
      exact scanRow_of_good i r'.segments (hgood i (mem_rangeInt.mp hi).2)
    show some { r' with segments := rnvSegments r' minIdx } = some r'
    rw [hseg]

theorem dedupFixed_of_histRel {segs' segs : List Segment}
    (h : List.Forall₂ histRel segs' segs) (hd : DedupFixed segs) :
    DedupFixed segs' := by
  induction h with
  | nil => intro s' hs'; cases hs'
  | cons hx h ih =>
    intro s' hs'
    cases List.mem_cons.mp hs' with
    | inl h1 =>
      subst h1
      exact dedupFixedSeg_of_sublist _ _ hx.2.2.2.2 (hd _ (List.mem_cons_self _ _))
    | inr h1 =>
      exact ih (fun s hs => hd s (List.mem_cons_of_mem _ hs)) s' h1

/-! Lemmas about the comparison walk of `fix_comparison_times_and_history`.
`compScanOK` is the per-comparison postcondition of the walk: every
segment has the comparison entry materialised, every concrete time is at
least the running previous time, and for Personal Best the recorded best
segment time is at most the implied segment duration. -/

def compScanOK (c : String) (m : TimingMethod) : TimeSpan → List Segment → Prop
  | _, [] => True
  | prev, s :: rest =>
    s.hasComparison c = true ∧
    (match (s.comparison c).get m with
     | none => compScanOK c m prev rest
     | some t => prev ≤ t ∧
         (c = personalBestName →
           ∃ b, s.best_segment_time.get m = some b ∧ b ≤ t - prev) ∧
         compScanOK c m t rest)

theorem hasComparison_congr {s' s : Segment} (h : s'.comparisons = s.comparisons)
    (c : String) : s'.hasComparison c = s.hasComparison c := by
  unfold Segment.hasComparison
  rw [h]

theorem comparison_congr {s' s : Segment} (h : s'.comparisons = s.comparisons)
    (c : String) : s'.comparison c = s.comparison c := by
  unfold Segment.comparison
  rw [h]

theorem fixCompPB_not_pb (c : String) (m : TimingMethod) (prev t1 : TimeSpan)
    (s2 : Segment) (hc : c ≠ personalBestName) :
    fixCompPB c m prev t1 s2 = s2 := by
  unfold fixCompPB
  rw [if_neg hc]

theorem fixCompPB_pb_none (m : TimingMethod) (prev t1 : TimeSpan) (s2 : Segment)
    (hb : s2.best_segment_time.get m = none) :
    fixCompPB personalBestName m prev t1 s2 = s2.set_best_time m (some (t1 - prev)) := by
  unfold fixCompPB
  rw [if_pos rfl, hb]

theorem fixCompPB_pb_some (m : TimingMethod) (prev t1 : TimeSpan) (s2 : Segment)
    (b : TimeSpan) (hb : s2.best_segment_time.get m = some b) :
    fixCompPB personalBestName m prev t1 s2
      = if b > t1 - prev then s2.set_best_time m (some (t1 - prev)) else s2 := by
  unfold fixCompPB
  rw [if_pos rfl, hb]

theorem fixCompPB_comparisons (c : String) (m : TimingMethod) (prev t1 : TimeSpan)
    (s2 : Segment) : (fixCompPB c m prev t1 s2).comparisons = s2.comparisons := by
  by_cases hc : c = personalBestName
  · subst hc
    cases hb : s2.best_segment_time.get m with
    | none =>
      rw [fixCompPB_pb_none m prev t1 s2 hb]
      exact (set_best_time_fields _ _ _).2.2.1
    | some b =>
      rw [fixCompPB_pb_some m prev t1 s2 b hb]
      by_cases hgt : b > t1 - prev
      · rw [if_pos hgt]
        exact (set_best_time_fields _ _ _).2.2.1
      · rw [if_neg hgt]
  · rw [fixCompPB_not_pb c m prev t1 s2 hc]

theorem fixCompPB_history (c : String) (m : TimingMethod) (prev t1 : TimeSpan)
    (s2 : Segment) : (fixCompPB c m prev t1 s2).segment_history = s2.segment_history := by
  by_cases hc : c = personalBestName
  · subst hc
    cases hb : s2.best_segment_time.get m with
    | none =>
      rw [fixCompPB_pb_none m prev t1 s2 hb]
      exact (set_best_time_fields _ _ _).2.2.2
    | some b =>
      rw [fixCompPB_pb_some m prev t1 s2 b hb]
      by_cases hgt : b > t1 - prev
      · rw [if_pos hgt]
        exact (set_best_time_fields _ _ _).2.2.2
      · rw [if_neg hgt]
  · rw [fixCompPB_not_pb c m prev t1 s2 hc]

theorem fixCompPB_best_pb (m : TimingMethod) (prev t1 : TimeSpan) (s2 : Segment) :
    ∃ b, (fixCompPB personalBestName m prev t1 s2).best_segment_time.get m = some b ∧
      b ≤ t1 - prev := by
  cases hb : s2.best_segment_time.get m with
  | none =>
    rw [fixCompPB_pb_none m prev t1 s2 hb]
    exact ⟨t1 - prev, set_best_time_get_self _ _ _, le_refl _⟩
  | some b =>
    rw [fixCompPB_pb_some m prev t1 s2 b hb]
    by_cases hgt : b > t1 - prev
    · rw [if_pos hgt]
      exact ⟨t1 - prev, set_best_time_get_self _ _ _, le_refl _⟩
    · rw [if_neg hgt]
      exact ⟨b, hb, not_lt.mp hgt⟩

theorem fixCompPB_best_ne (c : String) (m m' : TimingMethod) (prev t1 : TimeSpan)
    (s2 : Segment) (hm : m' ≠ m) :
    (fixCompPB c m prev t1 s2).best_segment_time.get m'
      = s2.best_segment_time.get m' := by
  by_cases hc : c = personalBestName
  · subst hc
    cases hb : s2.best_segment_time.get m with
    | none =>
      rw [fixCompPB_pb_none m prev t1 s2 hb]
      exact set_best_time_get_ne _ _ _ _ hm
    | some b =>
      rw [fixCompPB_pb_some m prev t1 s2 b hb]
      by_cases hgt : b > t1 - prev
      · rw [if_pos hgt]
        exact set_best_time_get_ne _ _ _ _ hm
      · rw [if_neg hgt]
  · rw [fixCompPB_not_pb c m prev t1 s2 hc]

theorem fixCompPB_best_cases (c : String) (m : TimingMethod) (prev t1 : TimeSpan)
    (s2 : Segment) (b : TimeSpan)
    (h : (fixCompPB c m prev t1 s2).best_segment_time.get m = some b) :
    s2.best_segment_time.get m = some b ∨ b = t1 - prev := by
  by_cases hc : c = personalBestName
  · subst hc
    cases hb : s2.best_segment_time.get m with
    | none =>
      rw [fixCompPB_pb_none m prev t1 s2 hb, set_best_time_get_self] at h
      right
      exact ((Option.some.injEq _ _).mp h).symm
    | some b0 =>
      rw [fixCompPB_pb_some m prev t1 s2 b0 hb] at h
      by_cases hgt : b0 > t1 - prev
      · rw [if_pos hgt, set_best_time_get_self] at h
        right
        exact ((Option.some.injEq _ _).mp h).symm
      · rw [if_neg hgt] at h
        left
        exact hb.symm.trans (hb ▸ h)
  · rw [fixCompPB_not_pb c m prev t1 s2 hc] at h
    left
    exact h

theorem fixCompPB_best_none (c : String) (m : TimingMethod) (prev t1 : TimeSpan)
    (s2 : Segment)
    (h : (fixCompPB c m prev t1 s2).best_segment_time.get m = none) :
    s2.best_segment_time.get m = none := by
  by_cases hc : c = personalBestName
  · subst hc
    cases hb : s2.best_segment_time.get m with
    | none => rfl
    | some b0 =>
      rw [fixCompPB_pb_some m prev t1 s2 b0 hb] at h
      by_cases hgt : b0 > t1 - prev
      · rw [if_pos hgt, set_best_time_get_self] at h
        cases h
      · rw [if_neg hgt] at h
        rw [hb] at h
        cases h
  · rw [fixCompPB_not_pb c m prev t1 s2 hc] at h
    exact h

theorem fixCompList_establishes (c : String) (m : TimingMethod) (segs : List Segment) :
    ∀ prev, compScanOK c m prev (fixCompList c m prev segs) := by
  induction segs with
  | nil => intro prev; exact trivial
  | cons s rest ih =>
    intro prev
    cases hg : ((s.ensure_comparison c).comparison c).get m with
    | none =>
      simp only [fixCompList, fixCompSeg, hg]
      simp only [compScanOK]
      refine ⟨hasComparison_ensure_self s c, ?_⟩
      rw [hg]
      exact ih prev
    | some t =>
      simp only [fixCompList, fixCompSeg, hg]
      simp only [compScanOK]
      by_cases hlt : t < prev
      · simp only [if_pos hlt]
        have hhc2 : ((s.ensure_comparison c).set_comparison_time c m
            (some prev)).hasComparison c = true := by
          rw [hasComparison_set_comparison_time]
          exact hasComparison_ensure_self s c
        have hg2 : (((s.ensure_comparison c).set_comparison_time c m
            (some prev)).comparison c).get m = some prev := by
          rw [set_comparison_time_self _ _ _ _ (hasComparison_ensure_self s c)]
          exact Time.get_set_self _ _ _
        refine ⟨?_, ?_⟩
        · rw [hasComparison_congr (fixCompPB_comparisons _ _ _ _ _) c]
          exact hhc2
        · rw [comparison_congr (fixCompPB_comparisons _ _ _ _ _) c, hg2]
          refine ⟨le_refl _, ?_, ih prev⟩
          intro hc
          subst hc
          exact fixCompPB_best_pb m prev prev _
      · simp only [if_neg hlt]
        refine ⟨?_, ?_⟩
        · rw [hasComparison_congr (fixCompPB_comparisons _ _ _ _ _) c]
          exact hasComparison_ensure_self s c
        · rw [comparison_congr (fixCompPB_comparisons _ _ _ _ _) c, hg]
          refine ⟨not_lt.mp hlt, ?_, ih t⟩
          intro hc
          subst hc
          exact fixCompPB_best_pb m prev t _

theorem fixCompList_id (c : String) (m : TimingMethod) (segs : List Segment) :
    ∀ prev, compScanOK c m prev segs → fixCompList c m prev segs = segs := by
  induction segs with
  | nil => intro prev _; rfl
  | cons s rest ih =>
    intro prev hok
    simp only [compScanOK] at hok
    obtain ⟨hhc, hrest⟩ := hok
    have hens : s.ensure_comparison c = s := ensure_comparison_of_has s c hhc
    cases hg : (s.comparison c).get m with
    | none =>
      rw [hg] at hrest
      simp only [fixCompList, fixCompSeg, hens, hg]
      rw [ih prev hrest]
    | some t =>
      rw [hg] at hrest
      obtain ⟨hle, hpb, hrest'⟩ := hrest
      have hnlt : ¬ t < prev := not_lt.mpr hle
      simp only [fixCompList, fixCompSeg, hens, hg, if_neg hnlt]
      have hfix : fixCompPB c m prev t s = s := by
        by_cases hc : c = personalBestName
        · subst hc
          obtain ⟨b, hb, hble⟩ := hpb rfl
          rw [fixCompPB_pb_some m prev t s b hb, if_neg (not_lt.mpr hble)]
        · exact fixCompPB_not_pb c m prev t s hc
      rw [hfix, ih t hrest']

/-- What the scan postcondition for comparison `c` and method `m` observes
of a segment; a transformation relating output to input segments this way
preserves `compScanOK c m`. -/
def compObs (c : String) (m : TimingMethod) (s' s : Segment) : Prop :=
  (s.hasComparison c = true → s'.hasComparison c = true) ∧
  (s'.comparison c).get m = (s.comparison c).get m ∧
  (c = personalBestName → s'.best_segment_time.get m = s.best_segment_time.get m)

theorem compScanOK_of_forall₂ (c : String) (m : TimingMethod)
    {segs' segs : List Segment} (hf : List.Forall₂ (compObs c m) segs' segs) :
    ∀ prev, compScanOK c m prev segs → compScanOK c m prev segs' := by
  induction hf with
  | nil => intro prev _; exact trivial
  | @cons s' s l' l hx hf ih =>
    intro prev hok
    simp only [compScanOK] at hok ⊢
    obtain ⟨hhc, hmatch⟩ := hok
    refine ⟨hx.1 hhc, ?_⟩
    rw [hx.2.1]
    cases hg : (s.comparison c).get m with
    | none =>
      rw [hg] at hmatch
      exact ih prev hmatch
    | some t =>
      rw [hg] at hmatch
      obtain ⟨hle, hpb, hrest⟩ := hmatch
      refine ⟨hle, ?_, ih t hrest⟩
      intro hc
      rw [hx.2.2 hc]
      exact hpb hc

theorem fixCompSeg_fst_history (c2 : String) (m2 : TimingMethod) (prev : TimeSpan)
    (s : Segment) :
    (fixCompSeg c2 m2 prev s).1.segment_history = s.segment_history := by
  cases hg : ((s.ensure_comparison c2).comparison c2).get m2 with
  | none =>
    simp only [fixCompSeg, hg]
    exact (ensure_fields s c2).2.2.2
  | some t =>
    simp only [fixCompSeg, hg]
    rw [fixCompPB_history]
    by_cases hlt : t < prev
    · rw [if_pos hlt, (set_comparison_time_fields _ _ _ _).2.2.2,
        (ensure_fields s c2).2.2.2]
    · rw [if_neg hlt, (ensure_fields s c2).2.2.2]

theorem fixCompSeg_fst_has (c c2 : String) (m2 : TimingMethod) (prev : TimeSpan)
    (s : Segment) (h : s.hasComparison c = true) :
    (fixCompSeg c2 m2 prev s).1.hasComparison c = true := by
  cases hg : ((s.ensure_comparison c2).comparison c2).get m2 with
  | none =>
    simp only [fixCompSeg, hg]
    exact hasComparison_ensure_mono s c2 c h
  | some t =>
    simp only [fixCompSeg, hg]
    rw [hasComparison_congr (fixCompPB_comparisons _ _ _ _ _) c]
    by_cases hlt : t < prev
    · rw [if_pos hlt, hasComparison_set_comparison_time]
      exact hasComparison_ensure_mono s c2 c h
    · rw [if_neg hlt]
      exact hasComparison_ensure_mono s c2 c h

theorem fixCompSeg_fst_get (c c2 : String) (m m2 : TimingMethod) (prev : TimeSpan)
    (s : Segment) (h : c2 ≠ c ∨ m2 ≠ m) :
    ((fixCompSeg c2 m2 prev s).1.comparison c).get m = (s.comparison c).get m := by
  cases hg : ((s.ensure_comparison c2).comparison c2).get m2 with
  | none =>
    simp only [fixCompSeg, hg]
    rw [comparison_ensure_any]
  | some t =>
    simp only [fixCompSeg, hg]
    rw [comparison_congr (fixCompPB_comparisons _ _ _ _ _) c]
    by_cases hlt : t < prev
    · rw [if_pos hlt]
      by_cases hcc : c2 = c
      · subst hcc
        have hm2 : m2 ≠ m := by
          cases h with
          | inl h1 => exact absurd rfl h1
          | inr h1 => exact h1
        rw [set_comparison_time_self _ _ _ _ (hasComparison_ensure_self s c2)]
        rw [Time.get_set_ne _ _ _ _ (fun hc => hm2 hc.symm)]
        rw [comparison_ensure_any]
      · rw [set_comparison_time_other _ _ _ _ _ (fun hc => hcc hc.symm)]
        rw [comparison_ensure_any]
    · rw [if_neg hlt, comparison_ensure_any]

theorem fixCompSeg_fst_best_ne (c2 : String) (m m2 : TimingMethod) (prev : TimeSpan)
    (s : Segment) (hm : m ≠ m2) :
    (fixCompSeg c2 m2 prev s).1.best_segment_time.get m
      = s.best_segment_time.get m := by
  cases hg : ((s.ensure_comparison c2).comparison c2).get m2 with
  | none =>
    simp only [fixCompSeg, hg]
    rw [(ensure_fields s c2).2.2.1]
  | some t =>
    simp only [fixCompSeg, hg]
    rw [fixCompPB_best_ne _ _ _ _ _ _ hm]
    by_cases hlt : t < prev
    · rw [if_pos hlt, (set_comparison_time_fields _ _ _ _).2.2.1,
        (ensure_fields s c2).2.2.1]
    · rw [if_neg hlt, (ensure_fields s c2).2.2.1]

theorem fixCompSeg_fst_best_not_pb (c2 : String) (m2 : TimingMethod) (prev : TimeSpan)
    (s : Segment) (hc : c2 ≠ personalBestName) :
    (fixCompSeg c2 m2 prev s).1.best_segment_time = s.best_segment_time := by
  cases hg : ((s.ensure_comparison c2).comparison c2).get m2 with
  | none =>
    simp only [fixCompSeg, hg]
    rw [(ensure_fields s c2).2.2.1]
  | some t =>
    simp only [fixCompSeg, hg]
    rw [fixCompPB_not_pb _ _ _ _ _ hc]
    by_cases hlt : t < prev
    · rw [if_pos hlt, (set_comparison_time_fields _ _ _ _).2.2.1,
        (ensure_fields s c2).2.2.1]
    · rw [if_neg hlt, (ensure_fields s c2).2.2.1]

theorem fixCompSeg_fst_best_cases (c2 : String) (m : TimingMethod) (prev : TimeSpan)
    (s : Segment) (b : TimeSpan)
    (hb : (fixCompSeg c2 m prev s).1.best_segment_time.get m = some b) :
    s.best_segment_time.get m = some b ∨ 0 ≤ b := by
  cases hg : ((s.ensure_comparison c2).comparison c2).get m with
  | none =>
    simp only [fixCompSeg, hg] at hb
    rw [(ensure_fields s c2).2.2.1] at hb
    exact Or.inl hb
  | some t =>
    simp only [fixCompSeg, hg] at hb
    have hs2best : ∀ s2fst, (if t < prev
          then (s.ensure_comparison c2).set_comparison_time c2 m (some prev)
          else s.ensure_comparison c2) = s2fst →
        s2fst.best_segment_time = s.best_segment_time := by
      intro s2fst hdef
      subst hdef
      by_cases hlt : t < prev
      · rw [if_pos hlt, (set_comparison_time_fields _ _ _ _).2.2.1,
          (ensure_fields s c2).2.2.1]
      · rw [if_neg hlt, (ensure_fields s c2).2.2.1]
    cases fixCompPB_best_cases c2 m prev (if t < prev then prev else t) _ b hb with
    | inl h1 =>
      left
      rw [← hs2best _ rfl]
      exact h1
    | inr h1 =>
      right
      subst h1
      by_cases hlt : t < prev
      · simp only [if_pos hlt]
        exact le_of_eq (sub_self prev).symm
      · simp only [if_neg hlt]
        exact sub_nonneg.mpr (not_lt.mp hlt)

theorem fixCompSeg_fst_best_none (c2 : String) (m : TimingMethod) (prev : TimeSpan)
    (s : Segment)
    (hb : (fixCompSeg c2 m prev s).1.best_segment_time.get m = none) :
    s.best_segment_time.get m = none := by
  cases hg : ((s.ensure_comparison c2).comparison c2).get m with
  | none =>
    simp only [fixCompSeg, hg] at hb
    rw [(ensure_fields s c2).2.2.1] at hb
    exact hb
  | some t =>
    simp only [fixCompSeg, hg] at hb
    have h1 := fixCompPB_best_none _ _ _ _ _ hb
    by_cases hlt : t < prev
    · rw [if_pos hlt, (set_comparison_time_fields _ _ _ _).2.2.1,
        (ensure_fields s c2).2.2.1] at h1
      exact h1
    · rw [if_neg hlt, (ensure_fields s c2).2.2.1] at h1
      exact h1

theorem fixCompList_forall₂ {R : Segment → Segment → Prop} (c2 : String)
    (m2 : TimingMethod) (hseg : ∀ prev s, R (fixCompSeg c2 m2 prev s).1 s) :
    ∀ (segs : List Segment) (prev : TimeSpan),
      List.Forall₂ R (fixCompList c2 m2 prev segs) segs := by
  intro segs
  induction segs with
  | nil => intro prev; exact List.Forall₂.nil
  | cons s rest ih =>
    intro prev
    exact List.Forall₂.cons (hseg prev s) (ih _)

theorem forall₂_map_pointwise {R : Segment → Segment → Prop} {f : Segment → Segment}
    (h : ∀ s, R (f s) s) (l : List Segment) : List.Forall₂ R (l.map f) l := by
  induction l with
  | nil => exact List.Forall₂.nil
  | cons s rest ih => exact List.Forall₂.cons (h s) ih

theorem foldl_preserve {α β : Type} {Inv : β → Prop} (f : β → α → β)
    (l : List α) (hstep : ∀ b a, a ∈ l → Inv b → Inv (f b a)) :
    ∀ b, Inv b → Inv (l.foldl f b) := by
  induction l with
  | nil => intro b h; exact h
  | cons a rest ih =>
    intro b h
    rw [List.foldl_cons]
    exact ih (fun b2 a2 ha2 => hstep b2 a2 (List.mem_cons_of_mem _ ha2))
      (f b a) (hstep b a (List.mem_cons_self _ _) h)

theorem fixCompSeg_compObs (c c2 : String) (m m2 : TimingMethod)
    (h : c2 ≠ c ∨ m2 ≠ m) (prev : TimeSpan) (s : Segment) :
    compObs c m (fixCompSeg c2 m2 prev s).1 s := by
  refine ⟨fixCompSeg_fst_has c c2 m2 prev s, fixCompSeg_fst_get c c2 m m2 prev s h, ?_⟩
  intro hc
  subst hc
  cases h with
  | inl h1 =>
    rw [fixCompSeg_fst_best_not_pb _ _ _ _ h1]
  | inr h1 =>
    exact fixCompSeg_fst_best_ne _ _ _ _ _ (fun hc2 => h1 hc2.symm)

/-- The scan postcondition for every custom comparison. -/
def CompOK (m : TimingMethod) (cs : List String) (segs : List Segment) : Prop :=
  ∀ c ∈ cs, compScanOK c m 0 segs

theorem compScanOK_foldl_preserve (c : String) (m : TimingMethod) (cs : List String)
    (hc : c ∉ cs) :
    ∀ segs, compScanOK c m 0 segs →
      compScanOK c m 0 (cs.foldl (fun segs c2 => fixCompList c2 m 0 segs) segs) := by
  induction cs with
  | nil => intro segs h; exact h
  | cons c2 rest ih =>
    intro segs h
    rw [List.foldl_cons]
    have hne : c2 ≠ c := fun hcc => hc (hcc ▸ List.mem_cons_self _ _)
    refine ih (fun hcr => hc (List.mem_cons_of_mem _ hcr)) _ ?_
    exact compScanOK_of_forall₂ c m
      (fixCompList_forall₂ c2 m (fixCompSeg_compObs c c2 m m (Or.inl hne)) segs 0) 0 h

theorem foldl_fixCompList_CompOK (m : TimingMethod) (cs : List String) :
    ∀ segs, CompOK m cs (cs.foldl (fun segs c2 => fixCompList c2 m 0 segs) segs) := by
  induction cs with
  | nil => intro segs c hc; cases hc
  | cons c0 rest ih =>
    intro segs c hc
    rw [List.foldl_cons]
    by_cases hcr : c ∈ rest
    · exact ih _ c hcr
    · have hc0 : c = c0 := by
        cases List.mem_cons.mp hc with
        | inl h => exact h
        | inr h => exact absurd h hcr
      subst hc0
      exact compScanOK_foldl_preserve c m rest hcr _
        (fixCompList_establishes c m segs 0)

/-! The three remaining invariants of `fix_comparison_times_and_history`
and their preservation relations. -/

/-- Invariant 3 of the spec: no best segment time is negative. -/
def BestNonneg (m : TimingMethod) (segs : List Segment) : Prop :=
  ∀ s ∈ segs, ∀ b, s.best_segment_time.get m = some b → 0 ≤ b

/-- A segment without a best segment time keeps only method-absent
history entries. -/
def NoneBestHist (m : TimingMethod) (segs : List Segment) : Prop :=
  ∀ s ∈ segs, s.best_segment_time.get m = none →
    ∀ e ∈ s.segment_history, e.2.get m = none

/-- Invariant 4 of the spec: no concrete history entry is below the best
segment time. -/
def BestFloor (m : TimingMethod) (segs : List Segment) : Prop :=
  ∀ s ∈ segs, ∀ b, s.best_segment_time.get m = some b →
    ∀ e ∈ s.segment_history, ∀ v, e.2.get m = some v → b ≤ v

def bestObs (m : TimingMethod) (s' s : Segment) : Prop :=
  ∀ b, s'.best_segment_time.get m = some b →
    (s.best_segment_time.get m = some b ∨ 0 ≤ b)

def nbhObs (m : TimingMethod) (s' s : Segment) : Prop :=
  s'.best_segment_time.get m = none →
    (s.best_segment_time.get m = none ∧
     ∀ e' ∈ s'.segment_history, ∃ e ∈ s.segment_history, e'.2.get m = e.2.get m)

def bfObs (m : TimingMethod) (s' s : Segment) : Prop :=
  ∀ b, s'.best_segment_time.get m = some b →
    (s.best_segment_time.get m = some b ∧
     ∀ e' ∈ s'.segment_history, ∃ e ∈ s.segment_history, e'.2.get m = e.2.get m)

theorem BestNonneg_of_forall₂ {m : TimingMethod} {segs' segs : List Segment}
    (hf : List.Forall₂ (bestObs m) segs' segs) (h : BestNonneg m segs) :
    BestNonneg m segs' := by
  induction hf with
  | nil => intro s hs; cases hs
  | @cons s' s l' l hx hf ih =>
    intro x hx2 b hb
    cases List.mem_cons.mp hx2 with
    | inl h1 =>
      subst h1
      cases hx b hb with
      | inl h2 => exact h _ (List.mem_cons_self _ _) b h2
      | inr h2 => exact h2
    | inr h1 =>
      exact ih (fun s2 hs2 => h s2 (List.mem_cons_of_mem _ hs2)) x h1 b hb

theorem NoneBestHist_of_forall₂ {m : TimingMethod} {segs' segs : List Segment}
    (hf : List.Forall₂ (nbhObs m) segs' segs) (h : NoneBestHist m segs) :
    NoneBestHist m segs' := by
  induction hf with
  | nil => intro s hs; cases hs
  | @cons s' s l' l hx hf ih =>
    intro x hx2 hbn e' he'
    cases List.mem_cons.mp hx2 with
    | inl h1 =>
      subst h1
      obtain ⟨hsn, hent⟩ := hx hbn
      obtain ⟨e, he, heq⟩ := hent e' he'
      rw [heq]
      exact h _ (List.mem_cons_self _ _) hsn e he
    | inr h1 =>
      exact ih (fun s2 hs2 => h s2 (List.mem_cons_of_mem _ hs2)) x h1 hbn e' he'

theorem BestFloor_of_forall₂ {m : TimingMethod} {segs' segs : List Segment}
    (hf : List.Forall₂ (bfObs m) segs' segs) (h : BestFloor m segs) :
    BestFloor m segs' := by
  induction hf with
  | nil => intro s hs; cases hs
  | @cons s' s l' l hx hf ih =>
    intro x hx2 b hb e' he' v hv
    cases List.mem_cons.mp hx2 with
    | inl h1 =>
      subst h1
      obtain ⟨hsb, hent⟩ := hx b hb
      obtain ⟨e, he, heq⟩ := hent e' he'
      rw [heq] at hv
      exact h _ (List.mem_cons_self _ _) b hsb e he v hv
    | inr h1 =>
      exact ih (fun s2 hs2 => h s2 (List.mem_cons_of_mem _ hs2)) x h1 b hb e' he' v hv

theorem bestObs_of_histRel {m : TimingMethod} {s' s : Segment} (h : histRel s' s) :
    bestObs m s' s := by
  intro b hb
  left
  rw [← h.2.2.1]
  exact hb

theorem nbhObs_of_histRel {m : TimingMethod} {s' s : Segment} (h : histRel s' s) :
    nbhObs m s' s := by
  intro hb
  refine ⟨by rw [← h.2.2.1]; exact hb, ?_⟩
  intro e' he'
  exact ⟨e', h.2.2.2.2.subset he', rfl⟩

theorem bfObs_of_histRel {m : TimingMethod} {s' s : Segment} (h : histRel s' s) :
    bfObs m s' s := by
  intro b hb
  refine ⟨by rw [← h.2.2.1]; exact hb, ?_⟩
  intro e' he'
  exact ⟨e', h.2.2.2.2.subset he', rfl⟩

theorem compObs_of_histRel {c : String} {m : TimingMethod} {s' s : Segment}
    (h : histRel s' s) : compObs c m s' s := by
  refine ⟨?_, ?_, ?_⟩
  · intro hc
    rw [hasComparison_congr h.2.2.2.1 c]
    exact hc
  · rw [comparison_congr h.2.2.2.1 c]
  · intro _
    rw [h.2.2.1]

/-! Per-segment behaviour of the four steps of the pass. -/

theorem step1Seg_eq_none (m : TimingMethod) (s : Segment)
    (hb : s.best_segment_time.get m = none) : step1Seg m s = s := by
  unfold step1Seg
  rw [hb]

theorem step1Seg_eq_some (m : TimingMethod) (s : Segment) (t : TimeSpan)
    (hb : s.best_segment_time.get m = some t) :
    step1Seg m s = if t < 0 then s.set_best_time m none else s := by
  unfold step1Seg
  rw [hb]

theorem step1Seg_comparisons (m : TimingMethod) (s : Segment) :
    (step1Seg m s).comparisons = s.comparisons := by
  cases hb : s.best_segment_time.get m with
  | none => rw [step1Seg_eq_none m s hb]
  | some t =>
    rw [step1Seg_eq_some m s t hb]
    by_cases hlt : t < 0
    · rw [if_pos hlt]
      exact (set_best_time_fields _ _ _).2.2.1
    · rw [if_neg hlt]

theorem step1Seg_history (m : TimingMethod) (s : Segment) :
    (step1Seg m s).segment_history = s.segment_history := by
  cases hb : s.best_segment_time.get m with
  | none => rw [step1Seg_eq_none m s hb]
  | some t =>
    rw [step1Seg_eq_some m s t hb]
    by_cases hlt : t < 0
    · rw [if_pos hlt]
      exact (set_best_time_fields _ _ _).2.2.2
    · rw [if_neg hlt]

theorem step1Seg_best_ne (m m' : TimingMethod) (s : Segment) (hm : m' ≠ m) :
    (step1Seg m s).best_segment_time.get m' = s.best_segment_time.get m' := by
  cases hb : s.best_segment_time.get m with
  | none => rw [step1Seg_eq_none m s hb]
  | some t =>
    rw [step1Seg_eq_some m s t hb]
    by_cases hlt : t < 0
    · rw [if_pos hlt]
      exact set_best_time_get_ne _ _ _ _ hm
    · rw [if_neg hlt]

theorem step1Seg_nonneg (m : TimingMethod) (s : Segment) (b : TimeSpan)
    (hb : (step1Seg m s).best_segment_time.get m = some b) : 0 ≤ b := by
  cases hbs : s.best_segment_time.get m with
  | none =>
    rw [step1Seg_eq_none m s hbs, hbs] at hb
    cases hb
  | some t =>
    rw [step1Seg_eq_some m s t hbs] at hb
    by_cases hlt : t < 0
    · rw [if_pos hlt, set_best_time_get_self] at hb
      cases hb
    · rw [if_neg hlt, hbs] at hb
      have : t = b := (Option.some.injEq _ _).mp hb
      subst this
      exact not_lt.mp hlt

theorem step1Seg_id (m : TimingMethod) (s : Segment)
    (h : ∀ b, s.best_segment_time.get m = some b → 0 ≤ b) : step1Seg m s = s := by
  cases hb : s.best_segment_time.get m with
  | none => exact step1Seg_eq_none m s hb
  | some t =>
    rw [step1Seg_eq_some m s t hb, if_neg (not_lt.mpr (h t hb))]

theorem step2_best (m : TimingMethod) (s : Segment) :
    (fix_history_from_none_best_segments s m).best_segment_time
      = s.best_segment_time := by
  unfold fix_history_from_none_best_segments
  by_cases hb : s.best_segment_time.get m = none
  · rw [if_pos hb]
  · rw [if_neg hb]

theorem step2_comparisons (m : TimingMethod) (s : Segment) :
    (fix_history_from_none_best_segments s m).comparisons = s.comparisons := by
  unfold fix_history_from_none_best_segments
  by_cases hb : s.best_segment_time.get m = none
  · rw [if_pos hb]
  · rw [if_neg hb]

theorem step2_history_sublist (m : TimingMethod) (s : Segment) :
    (fix_history_from_none_best_segments s m).segment_history.Sublist
      s.segment_history := by
  unfold fix_history_from_none_best_segments
  by_cases hb : s.best_segment_time.get m = none
  · rw [if_pos hb]
    exact List.filter_sublist _
  · rw [if_neg hb]

theorem step2_histRel (m : TimingMethod) (s : Segment) :
    histRel (fix_history_from_none_best_segments s m) s := by
  unfold fix_history_from_none_best_segments
  by_cases hb : s.best_segment_time.get m = none
  · rw [if_pos hb]
    exact ⟨rfl, rfl, rfl, rfl, List.filter_sublist _⟩
  · rw [if_neg hb]
    exact histRel_refl s

theorem step2_establishes (m : TimingMethod) (s : Segment) :
    (fix_history_from_none_best_segments s m).best_segment_time.get m = none →
    ∀ e ∈ (fix_history_from_none_best_segments s m).segment_history,
      e.2.get m = none := by
  intro hb e he
  unfold fix_history_from_none_best_segments at hb he
  by_cases hbs : s.best_segment_time.get m = none
  · rw [if_pos hbs] at he
    have := List.mem_filter.mp he
    simpa using this.2
  · rw [if_neg hbs] at hb
    exact absurd hb hbs

theorem step2_id (m : TimingMethod) (s : Segment)
    (h : s.best_segment_time.get m = none →
      ∀ e ∈ s.segment_history, e.2.get m = none) :
    fix_history_from_none_best_segments s m = s := by
  unfold fix_history_from_none_best_segments
  by_cases hb : s.best_segment_time.get m = none
  · rw [if_pos hb]
    have : s.segment_history.filter (fun e => decide (e.2.get m = none))
        = s.segment_history := by
      rw [List.filter_eq_self]
      intro e he
      simp [h hb e he]
    rw [this]
  · rw [if_neg hb]

theorem step4_best (m : TimingMethod) (s : Segment) :
    (fix_history_from_best_segment_times s m).best_segment_time
      = s.best_segment_time := by
  unfold fix_history_from_best_segment_times
  cases hb : s.best_segment_time.get m with
  | none => rfl
  | some b => rfl

theorem step4_comparisons (m : TimingMethod) (s : Segment) :
    (fix_history_from_best_segment_times s m).comparisons = s.comparisons := by
  unfold fix_history_from_best_segment_times
  cases hb : s.best_segment_time.get m with
  | none => rfl
  | some b => rfl

theorem step4_entries_obs (m m' : TimingMethod) (s : Segment) (hm : m' ≠ m) :
    ∀ e' ∈ (fix_history_from_best_segment_times s m).segment_history,
      ∃ e ∈ s.segment_history, e'.2.get m' = e.2.get m' := by
  intro e' he'
  unfold fix_history_from_best_segment_times at he'
  cases hb : s.best_segment_time.get m with
  | none =>
    rw [hb] at he'
    exact ⟨e', he', rfl⟩
  | some b =>
    rw [hb] at he'
    simp only [List.mem_map] at he'
    obtain ⟨e, he, rfl⟩ := he'
    refine ⟨e, he, ?_⟩
    cases hg : e.2.get m with
    | none => rfl
    | some v =>
      by_cases hlt : v < b
      · simp only [hg, if_pos hlt]
        exact Time.get_set_ne _ _ _ _ hm
      · simp only [hg, if_neg hlt]

theorem step4_establishes (m : TimingMethod) (s : Segment) (b : TimeSpan)
    (hb : (fix_history_from_best_segment_times s m).best_segment_time.get m = some b) :
    ∀ e ∈ (fix_history_from_best_segment_times s m).segment_history,
      ∀ v, e.2.get m = some v → b ≤ v := by
  rw [step4_best] at hb
  intro e' he' v hv
  unfold fix_history_from_best_segment_times at he'
  rw [hb] at he'
  simp only [List.mem_map] at he'
  obtain ⟨e, he, rfl⟩ := he'
  cases hg : e.2.get m with
  | none =>
    simp only [hg] at hv
    cases hv
  | some w =>
    by_cases hlt : w < b
    · simp only [hg, if_pos hlt] at hv
      rw [Time.get_set_self] at hv
      have : b = v := (Option.some.injEq _ _).mp hv
      subst this
      exact le_refl _
    · simp only [hg, if_neg hlt] at hv
      have : w = v := (Option.some.injEq _ _).mp hv
      subst this
      exact not_lt.mp hlt

theorem step4_eq_some (m : TimingMethod) (s : Segment) (b : TimeSpan)
    (hb : s.best_segment_time.get m = some b) :
    fix_history_from_best_segment_times s m
      = { s with segment_history := s.segment_history.map (fun e =>
          match e.2.get m with
          | some v => if v < b then (e.1, e.2.set m (some b)) else e
          | none => e) } := by
  unfold fix_history_from_best_segment_times
  rw [hb]

theorem step4_id (m : TimingMethod) (s : Segment)
    (h : ∀ b, s.best_segment_time.get m = some b →
      ∀ e ∈ s.segment_history, ∀ v, e.2.get m = some v → b ≤ v) :
    fix_history_from_best_segment_times s m = s := by
  cases hb : s.best_segment_time.get m with
  | none =>
    unfold fix_history_from_best_segment_times
    rw [hb]
  | some b =>
    rw [step4_eq_some m s b hb]
    have heq : (s.segment_history.map (fun e =>
        match e.2.get m with
        | some v => if v < b then (e.1, e.2.set m (some b)) else e
        | none => e)) = s.segment_history := by
      apply map_eq_self_of
      intro e he
      cases hg : e.2.get m with
      | none => simp only [hg]
      | some v =>
        have hle := h b hb e he v hg
        simp only [hg, if_neg (not_lt.mpr hle)]
    rw [heq]

theorem step4_nbhObs (m : TimingMethod) (s : Segment) :
    nbhObs m (fix_history_from_best_segment_times s m) s := by
  intro hb
  rw [step4_best] at hb
  have : fix_history_from_best_segment_times s m = s := by
    unfold fix_history_from_best_segment_times
    rw [hb]
  rw [this]
  exact ⟨hb, fun e' he' => ⟨e', he', rfl⟩⟩

/-! Whole-pass lemmas for `fix_comparison_times_and_history`. -/

theorem fixComp_segments_def (r : Run) (m : TimingMethod) :
    (r.fix_comparison_times_and_history m).segments
      = ((r.custom_comparisons.foldl (fun segs c => fixCompList c m 0 segs)
          ((r.segments.map (step1Seg m)).map
            (fun s => fix_history_from_none_best_segments s m))).map
          (fun s => fix_history_from_best_segment_times s m)) := rfl

theorem compObs_of_eq {c : String} {m : TimingMethod} {s' s : Segment}
    (hc : s'.comparisons = s.comparisons)
    (hb : s'.best_segment_time.get m = s.best_segment_time.get m) :
    compObs c m s' s := by
  refine ⟨?_, ?_, fun _ => hb⟩
  · intro h
    rw [hasComparison_congr hc c]
    exact h
  · rw [comparison_congr hc c]

theorem foldl_fixCompList_id (m : TimingMethod) (cs : List String)
    (segs : List Segment) (h : ∀ c ∈ cs, compScanOK c m 0 segs) :
    cs.foldl (fun segs c => fixCompList c m 0 segs) segs = segs := by
  induction cs with
  | nil => rfl
  | cons c0 rest ih =>
    rw [List.foldl_cons, fixCompList_id c0 m segs 0 (h c0 (List.mem_cons_self _ _))]
    exact ih (fun c hc => h c (List.mem_cons_of_mem _ hc))

/-- Establishment: after one pass, best segment times for its method are
non-negative. -/
theorem fixComp_BestNonneg (r : Run) (m : TimingMethod) :
    BestNonneg m (r.fix_comparison_times_and_history m).segments := by
  rw [fixComp_segments_def]
  apply BestNonneg_of_forall₂ (forall₂_map_pointwise
    (fun s => fun b hb => Or.inl (by rwa [step4_best] at hb)) _)
  apply foldl_preserve (fun segs c => fixCompList c m 0 segs) r.custom_comparisons
    (fun segs c2 _ h => BestNonneg_of_forall₂
      (fixCompList_forall₂ c2 m
        (fun prev s => fun b hb => fixCompSeg_fst_best_cases c2 m prev s b hb) segs 0) h)
  apply BestNonneg_of_forall₂ (forall₂_map_pointwise
    (fun s => fun b hb => Or.inl (by rwa [step2_best] at hb)) _)
  intro s hs b hb
  simp only [List.mem_map] at hs
  obtain ⟨s0, _, rfl⟩ := hs
  exact step1Seg_nonneg m s0 b hb

/-- Establishment: after one pass, segments without a best segment time
for its method hold only method-absent history entries. -/
theorem fixComp_NoneBestHist (r : Run) (m : TimingMethod) :
    NoneBestHist m (r.fix_comparison_times_and_history m).segments := by
  rw [fixComp_segments_def]
  apply NoneBestHist_of_forall₂ (forall₂_map_pointwise (fun s => step4_nbhObs m s) _)
  apply foldl_preserve (fun segs c => fixCompList c m 0 segs) r.custom_comparisons
    (fun segs c2 _ h => NoneBestHist_of_forall₂
      (fixCompList_forall₂ c2 m
        (fun prev s => fun hb => ⟨fixCompSeg_fst_best_none c2 m prev s hb,
          by
            rw [fixCompSeg_fst_history]
            exact fun e' he' => ⟨e', he', rfl⟩⟩) segs 0) h)
  intro s hs hb e he
  simp only [List.mem_map] at hs
  obtain ⟨s0, _, rfl⟩ := hs
  exact step2_establishes m s0 hb e he

/-- Establishment: after one pass, the scan postcondition holds for every
custom comparison. -/
theorem fixComp_CompOK (r : Run) (m : TimingMethod) :
    CompOK m r.custom_comparisons (r.fix_comparison_times_and_history m).segments := by
  rw [fixComp_segments_def]
  intro c hc
  apply compScanOK_of_forall₂ c m (forall₂_map_pointwise
    (fun s => compObs_of_eq (step4_comparisons m s) (by rw [step4_best])) _)
  exact foldl_fixCompList_CompOK m r.custom_comparisons _ c hc

/-- Establishment: after one pass, no concrete history entry for its
method is below the best segment time. -/
theorem fixComp_BestFloor (r : Run) (m : TimingMethod) :
    BestFloor m (r.fix_comparison_times_and_history m).segments := by
  rw [fixComp_segments_def]
  intro s hs b hb e he v hv
  simp only [List.mem_map] at hs
  obtain ⟨s0, _, rfl⟩ := hs
  exact step4_establishes m s0 b hb e he v hv

/-- Identity: a run already satisfying all four postconditions is a
fixpoint of the pass. -/
theorem fixComp_id (r : Run) (m : TimingMethod)
    (h1 : BestNonneg m r.segments) (h2 : NoneBestHist m r.segments)
    (h3 : BestFloor m r.segments) (h4 : CompOK m r.custom_comparisons r.segments) :
    r.fix_comparison_times_and_history m = r := by
  have hseg : (r.fix_comparison_times_and_history m).segments = r.segments := by
    rw [fixComp_segments_def]
    rw [map_eq_self_of _ _ (fun s hs => step1Seg_id m s (h1 s hs))]
    rw [map_eq_self_of _ _ (fun s hs => step2_id m s (fun hb => h2 s hs hb))]
    rw [foldl_fixCompList_id m r.custom_comparisons r.segments h4]
    exact map_eq_self_of _ _ (fun s hs => step4_id m s (fun b hb => h3 s hs b hb))
  calc r.fix_comparison_times_and_history m
      = { r with segments := (r.fix_comparison_times_and_history m).segments } := rfl
    _ = { r with segments := r.segments } := by rw [hseg]
    _ = r := rfl

/-! Cross-method preservation: a pass for method `m` does not disturb the
invariants of the other method `m'`. -/

theorem fixComp_preserves_BestNonneg (r : Run) (m m' : TimingMethod) (hm : m' ≠ m)
    (h : BestNonneg m' r.segments) :
    BestNonneg m' (r.fix_comparison_times_and_history m).segments := by
  rw [fixComp_segments_def]
  apply BestNonneg_of_forall₂ (forall₂_map_pointwise
    (fun s => fun b hb => Or.inl (by rwa [step4_best] at hb)) _)
  apply foldl_preserve (fun segs c => fixCompList c m 0 segs) r.custom_comparisons
    (fun segs c2 _ hI => BestNonneg_of_forall₂
      (fixCompList_forall₂ c2 m (fun prev s => fun b hb =>
        Or.inl (by rwa [fixCompSeg_fst_best_ne c2 m' m prev s hm] at hb)) segs 0) hI)
  apply BestNonneg_of_forall₂ (forall₂_map_pointwise
    (fun s => fun b hb => Or.inl (by rwa [step2_best] at hb)) _)
  apply BestNonneg_of_forall₂ (forall₂_map_pointwise
    (fun s => fun b hb => Or.inl (by rwa [step1Seg_best_ne m m' s hm] at hb)) _)
  exact h

theorem fixComp_preserves_NoneBestHist (r : Run) (m m' : TimingMethod) (hm : m' ≠ m)
    (h : NoneBestHist m' r.segments) :
    NoneBestHist m' (r.fix_comparison_times_and_history m).segments := by
  rw [fixComp_segments_def]
  apply NoneBestHist_of_forall₂ (forall₂_map_pointwise
    (fun s => fun hb => ⟨by rwa [step4_best] at hb, step4_entries_obs m m' s hm⟩) _)
  apply foldl_preserve (fun segs c => fixCompList c m 0 segs) r.custom_comparisons
    (fun segs c2 _ hI => NoneBestHist_of_forall₂
      (fixCompList_forall₂ c2 m (fun prev s => fun hb =>
        ⟨by rwa [fixCompSeg_fst_best_ne c2 m' m prev s hm] at hb,
          by
            rw [fixCompSeg_fst_history]
            exact fun e' he' => ⟨e', he', rfl⟩⟩) segs 0) hI)
  apply NoneBestHist_of_forall₂ (forall₂_map_pointwise
    (fun s => fun hb => ⟨by rwa [step2_best] at hb,
      fun e' he' => ⟨e', (step2_history_sublist m s).subset he', rfl⟩⟩) _)
  apply NoneBestHist_of_forall₂ (forall₂_map_pointwise
    (fun s => fun hb => ⟨by rwa [step1Seg_best_ne m m' s hm] at hb,
      by
        rw [step1Seg_history]
        exact fun e' he' => ⟨e', he', rfl⟩⟩) _)
  exact h

theorem fixComp_preserves_BestFloor (r : Run) (m m' : TimingMethod) (hm : m' ≠ m)
    (h : BestFloor m' r.segments) :
    BestFloor m' (r.fix_comparison_times_and_history m).segments := by
  rw [fixComp_segments_def]
  apply BestFloor_of_forall₂ (forall₂_map_pointwise
    (fun s => fun b hb => ⟨by rwa [step4_best] at hb, step4_entries_obs m m' s hm⟩) _)
  apply foldl_preserve (fun segs c => fixCompList c m 0 segs) r.custom_comparisons
    (fun segs c2 _ hI => BestFloor_of_forall₂
      (fixCompList_forall₂ c2 m (fun prev s => fun b hb =>
        ⟨by rwa [fixCompSeg_fst_best_ne c2 m' m prev s hm] at hb,
          by
            rw [fixCompSeg_fst_history]
            exact fun e' he' => ⟨e', he', rfl⟩⟩) segs 0) hI)
  apply BestFloor_of_forall₂ (forall₂_map_pointwise
    (fun s => fun b hb => ⟨by rwa [step2_best] at hb,
      fun e' he' => ⟨e', (step2_history_sublist m s).subset he', rfl⟩⟩) _)
  apply BestFloor_of_forall₂ (forall₂_map_pointwise
    (fun s => fun b hb => ⟨by rwa [step1Seg_best_ne m m' s hm] at hb,
      by
        rw [step1Seg_history]
        exact fun e' he' => ⟨e', he', rfl⟩⟩) _)
  exact h

theorem fixComp_preserves_CompOK (r : Run) (m m' : TimingMethod) (hm : m' ≠ m)
    (cs : List String) (h : CompOK m' cs r.segments) :
    CompOK m' cs (r.fix_comparison_times_and_history m).segments := by
  rw [fixComp_segments_def]
  intro c hc
  apply compScanOK_of_forall₂ c m' (forall₂_map_pointwise
    (fun s => compObs_of_eq (step4_comparisons m s) (by rw [step4_best])) _)
  have hfold : CompOK m' cs
      (r.custom_comparisons.foldl (fun segs c2 => fixCompList c2 m 0 segs)
        ((r.segments.map (step1Seg m)).map
          (fun s => fix_history_from_none_best_segments s m))) := by
    apply foldl_preserve (fun segs c2 => fixCompList c2 m 0 segs) r.custom_comparisons
      (fun segs c2 _ hI => ?_)
    · intro c3 hc3
      apply compScanOK_of_forall₂ c3 m' (forall₂_map_pointwise
        (fun s => compObs_of_eq (step2_comparisons m s) (by rw [step2_best])) _)
      apply compScanOK_of_forall₂ c3 m' (forall₂_map_pointwise
        (fun s => compObs_of_eq (step1Seg_comparisons m s) (step1Seg_best_ne m m' s hm)) _)
      exact h c3 hc3
    · intro c3 hc3
      apply compScanOK_of_forall₂ c3 m'
        (fixCompList_forall₂ c2 m
          (fixCompSeg_compObs c3 c2 m' m (Or.inr (fun hcm => hm hcm.symm))) segs 0)
      exact hI c3 hc3
  exact hfold c hc

theorem removeDuplicatesSeg_histRel (s : Segment) :
    histRel (removeDuplicatesSeg s) s :=
  ⟨rfl, rfl, rfl, rfl, dedupScan_sublist _ _ _⟩

theorem remove_duplicates_histRel (r : Run) :
    List.Forall₂ histRel r.remove_duplicates.segments r.segments :=
  forall₂_map_pointwise removeDuplicatesSeg_histRel r.segments

theorem rt_ne_gt : TimingMethod.realTime ≠ TimingMethod.gameTime := by decide

theorem gt_ne_rt : TimingMethod.gameTime ≠ TimingMethod.realTime := by decide

/-- The full post-`fix_splits` invariant package. -/
def FixedInv (r : Run) : Prop :=
  (∀ m, BestNonneg m r.segments) ∧ (∀ m, NoneBestHist m r.segments) ∧
  (∀ m, BestFloor m r.segments) ∧
  (∀ m, CompOK m r.custom_comparisons r.segments) ∧
  DedupFixed r.segments ∧
  (∀ i : Int, i < (r.max_attempt_history_index).getD 0 + 1 →
    goodRow (rowView i r.segments))

theorem fixSplits_establishes (r r' : Run) (h : r.fix_splits = some r') :
    FixedInv r' ∧ r'.segments ≠ [] := by
  unfold Run.fix_splits at h
  set A := TimingMethod.all.foldl (fun r m => r.fix_comparison_times_and_history m) r
    with hA
  have hA2 : A = (r.fix_comparison_times_and_history
      .realTime).fix_comparison_times_and_history .gameTime := rfl
  -- invariants of both methods after the two passes
  have hbnA : ∀ m, BestNonneg m A.segments := by
    intro m
    cases m with
    | realTime =>
      rw [hA2]
      exact fixComp_preserves_BestNonneg _ _ _ rt_ne_gt (fixComp_BestNonneg r .realTime)
    | gameTime =>
      rw [hA2]
      exact fixComp_BestNonneg _ .gameTime
  have hnbA : ∀ m, NoneBestHist m A.segments := by
    intro m
    cases m with
    | realTime =>
      rw [hA2]
      exact fixComp_preserves_NoneBestHist _ _ _ rt_ne_gt (fixComp_NoneBestHist r .realTime)
    | gameTime =>
      rw [hA2]
      exact fixComp_NoneBestHist _ .gameTime
  have hbfA : ∀ m, BestFloor m A.segments := by
    intro m
    cases m with
    | realTime =>
      rw [hA2]
      exact fixComp_preserves_BestFloor _ _ _ rt_ne_gt (fixComp_BestFloor r .realTime)
    | gameTime =>
      rw [hA2]
      exact fixComp_BestFloor _ .gameTime
  have hcoA : ∀ m, CompOK m r.custom_comparisons A.segments := by
    intro m
    cases m with
    | realTime =>
      rw [hA2]
      exact fixComp_preserves_CompOK _ _ _ rt_ne_gt _ (fixComp_CompOK r .realTime)
    | gameTime =>
      rw [hA2]
      have h0 := fixComp_CompOK (r.fix_comparison_times_and_history .realTime) .gameTime
      rw [fixComp_customs] at h0
      exact h0
  have hAcust : A.custom_comparisons = r.custom_comparisons := rfl
  -- dedup
  set B := A.remove_duplicates with hB
  have hBhist : List.Forall₂ histRel B.segments A.segments :=
    remove_duplicates_histRel A
  have hbnB : ∀ m, BestNonneg m B.segments := fun m =>
    BestNonneg_of_forall₂ (hBhist.imp (fun _ _ hr => bestObs_of_histRel hr)) (hbnA m)
  have hnbB : ∀ m, NoneBestHist m B.segments := fun m =>
    NoneBestHist_of_forall₂ (hBhist.imp (fun _ _ hr => nbhObs_of_histRel hr)) (hnbA m)
  have hbfB : ∀ m, BestFloor m B.segments := fun m =>
    BestFloor_of_forall₂ (hBhist.imp (fun _ _ hr => bfObs_of_histRel hr)) (hbfA m)
  have hcoB : ∀ m, CompOK m r.custom_comparisons B.segments := fun m c hc =>
    compScanOK_of_forall₂ c m (hBhist.imp (fun _ _ hr => compObs_of_histRel hr)) 0
      (hcoA m c hc)
  have hdB : DedupFixed B.segments := remove_duplicates_establishes A
  -- remove_none_values
  obtain ⟨minIdx, hmin, hr'⟩ := rnv_some_eq B r' h
  have hr's : r'.segments = rnvSegments B minIdx := by rw [hr']
  have hrnvhist : List.Forall₂ histRel r'.segments B.segments := by
    rw [hr's]
    exact rnvSegments_histRel B minIdx
  have hBc : B.custom_comparisons = r.custom_comparisons := by
    rw [hB, dedup_customs, hA]
    rfl
  have hcust : r'.custom_comparisons = r.custom_comparisons := by
    rw [hr']
    exact hBc
  have hmax : r'.max_attempt_history_index = B.max_attempt_history_index := by
    rw [hr']
    rfl
  have hne : r'.segments ≠ [] := by
    have hBne : B.segments ≠ [] := by
      intro hc
      rw [(min_idx_none_iff B).mpr hc] at hmin
      cases hmin
    intro hc
    have h1 := hrnvhist.length_eq
    rw [hc] at h1
    have h2 : B.segments.length = 0 := h1.symm
    exact hBne (List.length_eq_zero.mp h2)
  refine ⟨⟨?_, ?_, ?_, ?_, ?_, ?_⟩, hne⟩
  · exact fun m => BestNonneg_of_forall₂
      (hrnvhist.imp (fun _ _ hr => bestObs_of_histRel hr)) (hbnB m)
  · exact fun m => NoneBestHist_of_forall₂
      (hrnvhist.imp (fun _ _ hr => nbhObs_of_histRel hr)) (hnbB m)
  · exact fun m => BestFloor_of_forall₂
      (hrnvhist.imp (fun _ _ hr => bfObs_of_histRel hr)) (hbfB m)
  · intro m c hc
    rw [hcust] at hc
    exact compScanOK_of_forall₂ c m
      (hrnvhist.imp (fun _ _ hr => compObs_of_histRel hr)) 0 (hcoB m c hc)
  · rw [hr's]
    exact dedupFixed_of_histRel (rnvSegments_histRel B minIdx) hdB
  · intro i hi
    rw [hr's]
    apply rnvSegments_good B minIdx hmin i
    rw [hmax] at hi
    exact hi

theorem fixSplits_fixpoint (r' : Run) (hne : r'.segments ≠ [])
    (hinv : FixedInv r') : r'.fix_splits = some r' := by
  obtain ⟨hbn, hnb, hbf, hco, hd, hg⟩ := hinv
  have h1 : r'.fix_comparison_times_and_history .realTime = r' :=
    fixComp_id r' _ (hbn _) (hnb _) (hbf _) (hco _)
  have h2 : r'.fix_comparison_times_and_history .gameTime = r' :=
    fixComp_id r' _ (hbn _) (hnb _) (hbf _) (hco _)
  have hfold : TimingMethod.all.foldl
      (fun r m => r.fix_comparison_times_and_history m) r' = r' := by
    show (r'.fix_comparison_times_and_history
      .realTime).fix_comparison_times_and_history .gameTime = r'
    rw [h1, h2]
  unfold Run.fix_splits
  rw [hfold, remove_duplicates_id r' hd]
  exact remove_none_values_fixpoint r' hne hg

theorem compScanOK_lb (c : String) (m : TimingMethod) (segs : List Segment) :
    ∀ prev, compScanOK c m prev segs →
      ∀ j (hj : j < segs.length) b,
        ((segs.get ⟨j, hj⟩).comparison c).get m = some b → prev ≤ b := by
  induction segs with
  | nil => intro prev _ j hj; cases hj
  | cons s rest ih =>
    intro prev hok j hj b hb
    simp only [compScanOK] at hok
    obtain ⟨_, hmatch⟩ := hok
    cases j with
    | zero =>
      simp only [List.get] at hb
      rw [hb] at hmatch
      exact hmatch.1
    | succ j' =>
      simp only [List.get] at hb
      cases hg : (s.comparison c).get m with
      | none =>
        rw [hg] at hmatch
        exact ih prev hmatch j' (Nat.lt_of_succ_lt_succ hj) b hb
      | some t =>
        rw [hg] at hmatch
        obtain ⟨hle, _, hrest⟩ := hmatch
        exact hle.trans (ih t hrest j' (Nat.lt_of_succ_lt_succ hj) b hb)

theorem compScanOK_pairwise (c : String) (m : TimingMethod) (segs : List Segment) :
    ∀ prev, compScanOK c m prev segs →
      ∀ i j (hi : i < segs.length) (hj : j < segs.length), i ≤ j →
        ∀ a b, ((segs.get ⟨i, hi⟩).comparison c).get m = some a →
          ((segs.get ⟨j, hj⟩).comparison c).get m = some b → a ≤ b := by
  induction segs with
  | nil => intro prev _ i j hi; cases hi
  | cons s rest ih =>
    intro prev hok i j hi hj hij a b ha hb
    simp only [compScanOK] at hok
    obtain ⟨_, hmatch⟩ := hok
    cases i with
    | zero =>
      simp only [List.get] at ha
      rw [ha] at hmatch
      obtain ⟨_, _, hrest⟩ := hmatch
      cases j with
      | zero =>
        simp only [List.get] at hb
        rw [ha] at hb
        exact le_of_eq ((Option.some.injEq _ _).mp hb)
      | succ j' =>
        simp only [List.get] at hb
        exact compScanOK_lb c m rest a hrest j' (Nat.lt_of_succ_lt_succ hj) b hb
    | succ i' =>
      cases j with
      | zero => exact absurd hij (by omega)
      | succ j' =>
        simp only [List.get] at ha hb
        cases hg : (s.comparison c).get m with
        | none =>
          rw [hg] at hmatch
          exact ih prev hmatch i' j' (Nat.lt_of_succ_lt_succ hi)
            (Nat.lt_of_succ_lt_succ hj) (by omega) a b ha hb
        | some t =>
          rw [hg] at hmatch
          exact ih t hmatch.2.2 i' j' (Nat.lt_of_succ_lt_succ hi)
            (Nat.lt_of_succ_lt_succ hj) (by omega) a b ha hb

/-- The fixed run whose history held duplicate synthetic entries: after
`fix_splits` the stale concrete entries are gone (no best segment time was
recorded) and the Personal Best comparison entry is materialised. -/
def runDupFixed : Run :=
  ⟨"", "", 0, 0, [], mdEmpty, false,
    [⟨"A", Time.default, Time.default,
      [("Personal Best", Time.default)], []⟩],
    ["Personal Best"]⟩

/-- Claim C4: `fix_splits` is idempotent — applying it to its own output
yields exactly the same Run again. -/
theorem c4_fix_splits_idempotent (r r' : Run) (h : r.fix_splits = some r') :
    r'.fix_splits = some r' := by
  obtain ⟨hinv, hne⟩ := fixSplits_establishes r r' h
  exact fixSplits_fixpoint r' hne hinv

/-- Claim C4, witness: a concrete run that `fix_splits` changes, whose
output is then a fixpoint. -/
theorem c4_fix_splits_idempotent_witness :
    runDupSynthetic.fix_splits = some runDupFixed ∧
    runDupFixed.fix_splits = some runDupFixed := by
  have h1 : runDupSynthetic.fix_splits = some runDupFixed := by decide
  exact ⟨h1, c4_fix_splits_idempotent runDupSynthetic runDupFixed h1⟩

/-- Claim C5: after `fix_splits`, for every custom comparison and timing
method, the comparison times across segments in run order are
non-decreasing wherever both are concrete (segments without a concrete
time are skipped by the carried running value). -/
theorem c5_comparison_monotonicity (r r' : Run) (h : r.fix_splits = some r')
    (c : String) (hc : c ∈ r'.custom_comparisons) (m : TimingMethod)
    (i j : Nat) (hi : i < r'.segments.length) (hj : j < r'.segments.length)
    (hij : i ≤ j) (a b : TimeSpan)
    (ha : ((r'.segments.get ⟨i, hi⟩).comparison c).get m = some a)
    (hb : ((r'.segments.get ⟨j, hj⟩).comparison c).get m = some b) :
    a ≤ b := by
  obtain ⟨⟨_, _, _, hco, _, _⟩, _⟩ := fixSplits_establishes r r' h
  exact compScanOK_pairwise c m r'.segments 0 (hco m c hc) i j hi hj hij a b ha hb

/-- Claim C5, witness. -/
theorem c5_comparison_monotonicity_witness :
    (5 : TimeSpan) ≤ (5 : TimeSpan) := by
  have h1 : runFixedExample.fix_splits = some runFixedExample := by decide
  exact c5_comparison_monotonicity runFixedExample runFixedExample h1
    "Personal Best" (by decide) .realTime 0 0 (by decide) (by decide)
    (by decide) 5 5 (by decide) (by decide)

/-- Claim C6: after `fix_splits`, whenever a segment's best segment time
for a method is set, every concrete history entry of that segment for that
method is at least the best segment time. -/
theorem c6_best_segment_floor (r r' : Run) (h : r.fix_splits = some r')
    (s : Segment) (hs : s ∈ r'.segments) (m : TimingMethod) (b : TimeSpan)
    (hb : s.best_segment_time.get m = some b)
    (e : Int × Time) (he : e ∈ s.segment_history) (v : TimeSpan)
    (hv : e.2.get m = some v) : b ≤ v := by
  obtain ⟨⟨_, _, hbf, _, _, _⟩, _⟩ := fixSplits_establishes r r' h
  exact hbf m s hs b hb e he v hv

/-- Claim C6, witness. -/
theorem c6_best_segment_floor_witness : (2 : TimeSpan) ≤ (5 : TimeSpan) := by
  have h1 : runFixedExample.fix_splits = some runFixedExample := by decide
  exact c6_best_segment_floor runFixedExample runFixedExample h1
    ⟨"A", Time.default, ⟨some 2, none⟩, [("Personal Best", ⟨some 5, none⟩)],
      [(1, ⟨some 5, none⟩)]⟩
    (by decide) .realTime 2 (by decide) (1, ⟨some 5, none⟩) (by decide) 5 (by decide)

/-! What `remove_none_values` may remove: with well-formed (duplicate-free)
history keys, every entry holding a concrete time survives the row scans
at its segment. -/

def concretePres (s' s : Segment) : Prop :=
  ∀ e ∈ s.segment_history, e.2.isEmptyTime = false → e ∈ s'.segment_history

def KeysNodup (segs : List Segment) : Prop :=
  ∀ s ∈ segs, (s.segment_history.map (fun e => e.1)).Nodup

theorem eq_of_mem_nodup_keys {h : SegmentHistory}
    (hnd : (h.map (fun e => e.1)).Nodup) {e1 e2 : Int × Time}
    (h1 : e1 ∈ h) (h2 : e2 ∈ h) (hk : e1.1 = e2.1) : e1 = e2 := by
  induction h with
  | nil => cases h1
  | cons a t ih =>
    rw [List.map_cons, List.nodup_cons] at hnd
    cases List.mem_cons.mp h1 with
    | inl ha1 =>
      cases List.mem_cons.mp h2 with
      | inl ha2 => rw [ha1, ha2]
      | inr ha2 =>
        exfalso
        apply hnd.1
        apply List.mem_map.mpr
        refine ⟨e2, ha2, ?_⟩
        rw [← hk, ha1]
    | inr ha1 =>
      cases List.mem_cons.mp h2 with
      | inl ha2 =>
        exfalso
        apply hnd.1
        apply List.mem_map.mpr
        refine ⟨e1, ha1, ?_⟩
        rw [hk, ha2]
      | inr ha2 => exact ih hnd.2 ha1 ha2

theorem rowRel_concretePres {i : Int} {s' s : Segment} (h : rowRel i s' s)
    (hnd : (s.segment_history.map (fun e => e.1)).Nodup) : concretePres s' s := by
  cases h with
  | inl h => subst h; exact fun e he _ => he
  | inr h =>
    obtain ⟨hdef, t, hget, hemp⟩ := h
    intro e he hconc
    rw [hdef]
    show e ∈ s.segment_history.filter (fun e2 => !(e2.1 == i))
    rw [List.mem_filter]
    refine ⟨he, ?_⟩
    by_cases hk : e.1 = i
    · exfalso
      unfold SegmentHistory.get at hget
      cases hf : s.segment_history.find? (fun e2 => e2.1 == i) with
      | none =>
        rw [hf] at hget
        cases hget
      | some e0 =>
        rw [hf] at hget
        have he0mem := List.mem_of_find?_eq_some hf
        have he0key := List.find?_some hf
        have he0key2 : e0.1 = i := beq_iff_eq.mp he0key
        have heq : e = e0 :=
          eq_of_mem_nodup_keys hnd he he0mem (hk.trans he0key2.symm)
        simp only [Option.map_some', Option.some.injEq] at hget
        rw [heq, hget, hemp] at hconc
        cases hconc
    · simp [hk]

theorem forall₂_imp_mem {R S : Segment → Segment → Prop} {l' l : List Segment}
    (h : List.Forall₂ R l' l) (himp : ∀ s' s, s ∈ l → R s' s → S s' s) :
    List.Forall₂ S l' l := by
  induction h with
  | nil => exact List.Forall₂.nil
  | @cons s' s t' t hx hrest ih =>
    exact List.Forall₂.cons (himp s' s (List.mem_cons_self _ _) hx)
      (ih (fun a b hb hr => himp a b (List.mem_cons_of_mem _ hb) hr))

theorem scanRow_concretePres (i : Int) (segs : List Segment)
    (hwf : KeysNodup segs) :
    List.Forall₂ concretePres (scanRow i segs) segs :=
  forall₂_imp_mem (scanRow_forall₂ i segs)
    (fun _ s hs hr => rowRel_concretePres hr (hwf s hs))

theorem KeysNodup_of_histRel {segs' segs : List Segment}
    (h : List.Forall₂ histRel segs' segs) (hwf : KeysNodup segs) :
    KeysNodup segs' := by
  induction h with
  | nil => intro s hs; cases hs
  | @cons s' s t' t hx hrest ih =>
    intro x hxm
    cases List.mem_cons.mp hxm with
    | inl h1 =>
      subst h1
      exact ((hx.2.2.2.2.map (fun e => e.1)).nodup
        (hwf s (List.mem_cons_self _ _)))
    | inr h1 =>
      exact ih (fun a ha => hwf a (List.mem_cons_of_mem _ ha)) x h1

theorem forall₂_concretePres_refl (l : List Segment) :
    List.Forall₂ concretePres l l := by
  induction l with
  | nil => exact List.Forall₂.nil
  | cons s rest ih => exact List.Forall₂.cons (fun e he _ => he) ih

theorem forall₂_concretePres_trans {a b c : List Segment}
    (h1 : List.Forall₂ concretePres a b) (h2 : List.Forall₂ concretePres b c) :
    List.Forall₂ concretePres a c := by
  induction h1 generalizing c with
  | nil => cases h2; exact List.Forall₂.nil
  | @cons x y t1 t2 hx hrest ih =>
    cases h2 with
    | @cons _ z _ t3 hy hrest2 =>
      refine List.Forall₂.cons ?_ (ih hrest2)
      intro e he hc
      exact hx (e) (hy e he hc) hc

theorem foldl_scanRow_concretePres (rows : List Int) :
    ∀ segs, KeysNodup segs →
      List.Forall₂ concretePres
        (rows.foldl (fun segs i => scanRow i segs) segs) segs := by
  induction rows with
  | nil => intro segs _; exact forall₂_concretePres_refl segs
  | cons j rest ih =>
    intro segs hwf
    rw [List.foldl_cons]
    have h1 := scanRow_concretePres j segs hwf
    have hwf2 : KeysNodup (scanRow j segs) :=
      KeysNodup_of_histRel (scanRow_histRel j segs) hwf
    exact forall₂_concretePres_trans (ih (scanRow j segs) hwf2) h1

/-- Claim C1, amended: `remove_duplicates` removes only synthetic entries
(it preserves the actual-run entries, index at least 1, of every segment
exactly), while `remove_none_values` may remove entries at any index, but
(for runs with duplicate-free history keys) only fully-absent ones: every
entry with a concrete time in either method survives at its segment. -/
theorem c1_amended (r : Run)
    (hwf : ∀ s ∈ r.segments, (s.segment_history.map (fun e => e.1)).Nodup) :
    List.Forall₂ (fun s' s =>
        s'.segment_history.filter (fun e => decide (1 ≤ e.1))
          = s.segment_history.filter (fun e => decide (1 ≤ e.1)))
      r.remove_duplicates.segments r.segments ∧
    (∀ r', r.remove_none_values = some r' →
      List.Forall₂ (fun s' s => ∀ e ∈ s.segment_history,
        e.2.isEmptyTime = false → e ∈ s'.segment_history)
        r'.segments r.segments) := by
  constructor
  · apply forall₂_map_pointwise
    intro s
    show (removeDuplicatesSeg s).segment_history.filter (fun e => decide (1 ≤ e.1))
      = s.segment_history.filter (fun e => decide (1 ≤ e.1))
    unfold removeDuplicatesSeg
    exact dedupScan_actual s.segment_history _ _
  · intro r' h
    obtain ⟨minIdx, hmin, hr'⟩ := rnv_some_eq r r' h
    have hseg : r'.segments = rnvSegments r minIdx := by rw [hr']
    rw [hseg]
    unfold rnvSegments
    exact foldl_scanRow_concretePres _ r.segments hwf

/-- Claim C1, amended, witness at a concrete run. -/
theorem c1_amended_witness :
    List.Forall₂ (fun s' s =>
        s'.segment_history.filter (fun e => decide (1 ≤ e.1))
          = s.segment_history.filter (fun e => decide (1 ≤ e.1)))
      runDupSynthetic.remove_duplicates.segments runDupSynthetic.segments ∧
    (∀ r', runDupSynthetic.remove_none_values = some r' →
      List.Forall₂ (fun s' s => ∀ e ∈ s.segment_history,
        e.2.isEmptyTime = false → e ∈ s'.segment_history)
        r'.segments runDupSynthetic.segments) :=
  c1_amended runDupSynthetic (by decide)

example :
    dedupScan [100] [] [(-1, ⟨some 100, none⟩), (0, ⟨some 100, none⟩), (1, ⟨some 100, none⟩)]
      = [(1, ⟨some 100, none⟩)] := by decide

example : rangeInt (-1) 2 = [-1, 0, 1] := by decide
